import Mathlib

set_option linter.unusedVariables false

/-!
Shallow embedding of `ringdown.py` (QNM ringdown least-squares fitting).

Exact arithmetic: complex floating-point scalars are modelled by `CQ`
(complex numbers with rational components).  External collaborators are
explicit parameters:
  * the `qnm` package's mode cache (`qnm.modes_cache` / `qnm.angular.ells`)
    is an `Oracle`,
  * `np.exp` is a function parameter `cexp : CQ → CQ`,
  * `np.linalg.lstsq` is a function parameter `lstsq` (given the design
    matrix as a list of columns and the observation vector),
  * `scri`'s spline `interpolate` is a function parameter `interp`.
Python `dict`s of terms are association lists `List (ℕ × Term)` in insertion
order; in-place mutation of the caller's dictionary is modelled by threading
the dictionary state through the fitter and returning the final state (the
source writes into `fixed_QNMs` and returns that same object).
Python exceptions are modelled with `Except`; inside the synthesizer the
error also carries the current contents of the destination buffer, so that
partial writes to a caller-supplied buffer are observable.
-/

namespace Ringdown

/-- Complex numbers with rational components; exact stand-in for the complex
floats of `ringdown.py`. -/
structure CQ where
  re : ℚ
  im : ℚ
  deriving DecidableEq, Repr

namespace CQ

theorem ext' {a b : CQ} (hre : a.re = b.re) (him : a.im = b.im) : a = b := by
  cases a; cases b; simp_all

instance : Zero CQ := ⟨⟨0, 0⟩⟩
instance : One CQ := ⟨⟨1, 0⟩⟩
instance : Add CQ := ⟨fun a b => ⟨a.re + b.re, a.im + b.im⟩⟩
instance : Neg CQ := ⟨fun a => ⟨-a.re, -a.im⟩⟩
instance : Mul CQ := ⟨fun a b => ⟨a.re * b.re - a.im * b.im, a.re * b.im + a.im * b.re⟩⟩

theorem zero_def : (0 : CQ) = ⟨0, 0⟩ := rfl
theorem one_def : (1 : CQ) = ⟨1, 0⟩ := rfl
theorem add_def (a b : CQ) : a + b = ⟨a.re + b.re, a.im + b.im⟩ := rfl
theorem neg_def (a : CQ) : -a = ⟨-a.re, -a.im⟩ := rfl
theorem mul_def (a b : CQ) : a * b = ⟨a.re * b.re - a.im * b.im, a.re * b.im + a.im * b.re⟩ := rfl

instance : CommRing CQ where
  nsmul := nsmulRec
  zsmul := zsmulRec
  add_assoc a b c := by apply ext' <;> simp [add_def] <;> ring
  zero_add a := by apply ext' <;> simp [add_def, zero_def]
  add_zero a := by apply ext' <;> simp [add_def, zero_def]
  add_comm a b := by apply ext' <;> simp [add_def] <;> ring
  neg_add_cancel a := by apply ext' <;> simp [add_def, neg_def, zero_def]
  mul_assoc a b c := by apply ext' <;> simp [mul_def] <;> ring
  one_mul a := by apply ext' <;> simp [mul_def, one_def]
  mul_one a := by apply ext' <;> simp [mul_def, one_def]
  left_distrib a b c := by apply ext' <;> simp [mul_def, add_def] <;> ring
  right_distrib a b c := by apply ext' <;> simp [mul_def, add_def] <;> ring
  zero_mul a := by apply ext' <;> simp [mul_def, zero_def]
  mul_zero a := by apply ext' <;> simp [mul_def, zero_def]
  mul_comm a b := by apply ext' <;> simp [mul_def] <;> ring

/-- `np.conjugate`. -/
def conj (z : CQ) : CQ := ⟨z.re, -z.im⟩

/-- Division of a complex value by a real (rational) scalar, as in
`omega = Momega / mass`. -/
def divQ (z : CQ) (q : ℚ) : CQ := ⟨z.re / q, z.im / q⟩

/-- Embedding of a rational (time values, etc.) into `CQ`. -/
def ofQ (q : ℚ) : CQ := ⟨q, 0⟩

/-- `complex(0.0, -1.0)`, the `-i` prefactor of `exp(-i ω (t - t_ref))`. -/
def negI : CQ := ⟨0, -1⟩

/-- Squared modulus `|z|²`, the per-mode contribution to `scri`'s
`WaveformModes.norm()`. -/
def normSq (z : CQ) : ℚ := z.re * z.re + z.im * z.im

end CQ

deriving instance DecidableEq for Except

/-- Python exceptions raised by the code (plus numpy broadcast failures). -/
inductive PyErr where
  | valueErr (msg : String)
  | typeErr (msg : String)
  | keyErr (msg : String)
  | broadcastErr
  deriving DecidableEq, Repr

/-- `chi` / `mass` arguments may be scalars or per-time-sample arrays
(`type(chi) == list or type(chi) == np.ndarray`). -/
inductive MSpin where
  | scalar (v : ℚ)
  | array (vs : List ℚ)
  deriving DecidableEq, Repr

namespace MSpin

def isArr : MSpin → Bool
  | scalar _ => false
  | array _ => true

/-- Scalar value (only used on the scalar branch). -/
def sc : MSpin → ℚ
  | scalar v => v
  | array _ => 0

/-- `chi[i]` on the array branch. -/
def valAt : MSpin → ℕ → ℚ
  | scalar v, _ => v
  | array vs, i => vs.getD i 0

end MSpin

/-- `sf.LM_index(ell, m, ell_min) = ell*(ell+1) - ell_min**2 + m`. -/
def LM_index (l : ℕ) (m : ℤ) (ell_min : ℕ) : ℤ :=
  (l : ℤ) * (l + 1) + m - (ell_min : ℤ) ^ 2

/-- The `(ℓ, m)` mode enumeration of a `scri.WaveformModes` data array:
ℓ-major from `ell_min` to `ell_max`, `m` from `-ℓ` to `ℓ`. -/
def LM_list (ell_min ell_max : ℕ) : List (ℕ × ℤ) :=
  (List.range' ell_min (ell_max + 1 - ell_min)).flatMap
    (fun l => (List.range (2 * l + 1)).map (fun k => (l, (k : ℤ) - (l : ℤ))))

/-- A mode sequence returned by `qnm.modes_cache(s, ell, m, n)`: its `l_max`
and its evaluation at a spin `chi`, giving `(M*omega, C)`. -/
structure ModeSeq where
  l_max : ℕ
  atChi : ℚ → CQ × List CQ

/-- The external QNM database: `s ell m n ↦ mode sequence`. -/
def Oracle := ℤ → ℕ → ℤ → ℕ → ModeSeq

/-- `qnm.angular.ells(s, m, l_max) = range(max(|s|, |m|), l_max + 1)`. -/
def qnm_angular_ells (s m : ℤ) (l_max : ℕ) : List ℕ :=
  List.range' (max s.natAbs m.natAbs) (l_max + 1 - max s.natAbs m.natAbs)

/-- Result of `qnm_from_tuple`: frequency, spherical-spheroidal mixing
coefficients, and the list of ℓ values the coefficients refer to. -/
structure QNMResult where
  omega : CQ
  C : List CQ
  ells : List ℕ
  deriving DecidableEq, Repr

/-- `qnm_from_tuple(tup, chi, mass, s)` from `ringdown.py` lines 64-113.
The `try/except` fallback from `store=True` to `interp_only=True` is folded
into the single external evaluation `ModeSeq.atChi`. -/
def qnm_from_tuple (oracle : Oracle) (ell : ℕ) (m : ℤ) (n : ℕ) (sign : ℤ)
    (chi mass : ℚ) (s : ℤ) : Except PyErr QNMResult :=
  if sign = 1 then
    let seq := oracle s ell m n
    let mc := seq.atChi chi
    let ells := qnm_angular_ells s m seq.l_max
    .ok ⟨CQ.divQ mc.1 mass, mc.2, ells⟩
  else if sign = -1 then
    let seq := oracle s ell (-m) n
    let mc := seq.atChi chi
    let ells := qnm_angular_ells s m seq.l_max
    .ok ⟨CQ.divQ (-(CQ.conj mc.1)) mass,
         (ells.zip mc.2).map (fun p => (-1 : CQ) ^ (ell + p.1) * CQ.conj p.2),
         ells⟩
  else .error (.valueErr "Last element of mode label must be +1 or -1")

/-- A term of the mode dictionary; absent keys are `none` (reading one raises
`KeyError`). -/
structure Term where
  type : String
  mode : Option (ℕ × ℤ × ℕ × ℤ)
  A : Option CQ
  omega : Option CQ
  target : Option (ℕ × ℤ)
  deriving DecidableEq, Repr

instance : Inhabited Term := ⟨⟨"", none, none, none, none⟩⟩

/-- Waveform data array: one row per time sample, one entry per `(ℓ, m)`
column. -/
abbrev Data := List (List CQ)

/-- numpy index wrap-around for a (possibly negative) column index. -/
def wrapIx (len : ℕ) (j : ℤ) : ℕ :=
  (if j < 0 then (len : ℤ) + j else j).toNat

/-- Entry `(r, c)` of a data array (reads outside the array give 0; all uses
in the development are in range). -/
def entry (d : Data) (r c : ℕ) : CQ := (d.getD r []).getD c 0

/-- `data[:, j] += v` (column-wise in-place add, per-row values `v`). -/
def addColData (d : Data) (j : ℤ) (v : ℕ → CQ) : Data :=
  d.mapIdx (fun r row =>
    let c := wrapIx row.length j
    row.set c (row.getD c 0 + v r))

/-- `data[:, j] = v` (column-wise assignment). -/
def setColData (d : Data) (j : ℤ) (v : ℕ → CQ) : Data :=
  d.mapIdx (fun r row =>
    let c := wrapIx row.length j
    row.set c (v r))

/-- `data[i, j] += v` (single entry, used by the per-sample chi/mass branch). -/
def addEntryData (d : Data) (i : ℕ) (j : ℤ) (v : CQ) : Data :=
  d.set i
    (let row := d.getD i []
     let c := wrapIx row.length j
     row.set c (row.getD c 0 + v))

/-- `np.zeros(d_shape, dtype=complex)`. -/
def zeroData (rows cols : ℕ) : Data :=
  List.replicate rows (List.replicate cols 0)

/-- `C[ells == l]`: the mixing coefficients whose ℓ value equals `l`. -/
def maskSel (C : List CQ) (ells : List ℕ) (l : ℕ) : List CQ :=
  ((ells.zip C).filter (fun p => p.1 = l)).map (·.2)

/-- A `scri.WaveformModes` object: time axis, ℓ range, data array. -/
structure WM where
  t : List ℚ
  ell_min : ℕ
  ell_max : ℕ
  data : Data
  deriving DecidableEq

/-- The inner `(ℓ, m)`-loop of a QNM term on the scalar chi/mass branch
(`ringdown.py` lines 203-212): for every `(l, m)` of `LM` with matching `m`,
`data[:, LM_index(l, m, ell_min)] += A * expiwt * c_l`, where `c_l` is
`C[ells == l]`.  When that selection is empty, `c_l` stays an empty array and
the `+=` raises a numpy broadcast error, carrying the buffer written so far. -/
def lm_step (cexp : CQ → CQ) (A : CQ) (res : QNMResult) (mterm : ℤ)
    (t : List ℚ) (t_ref : ℚ) (ell_min : ℕ) (d : Data) (lm : ℕ × ℤ) :
    Except (PyErr × Data) Data :=
  if lm.2 = mterm then
    match maskSel res.C res.ells lm.1 with
    | [] => .error (.broadcastErr, d)
    | c :: _ => .ok (addColData d (LM_index lm.1 lm.2 ell_min)
        (fun r => A * cexp (CQ.negI * res.omega * CQ.ofQ (t.getD r 0 - t_ref)) * c))
  else .ok d

def qnmLMFold (cexp : CQ → CQ) (A : CQ) (res : QNMResult) (mterm : ℤ)
    (t : List ℚ) (t_ref : ℚ) (ell_min : ℕ) (LM : List (ℕ × ℤ)) (d : Data) :
    Except (PyErr × Data) Data :=
  LM.foldlM (lm_step cexp A res mterm t t_ref ell_min) d

/-- The per-time-sample branch of a QNM term (`ringdown.py` lines 168-196),
taken when chi or mass is array-valued: the oracle lookup is redone at every
time sample `i` and single entries `data[i, ...]` are updated. -/
def qnmArrFold (oracle : Oracle) (cexp : CQ → CQ) (chi mass : MSpin)
    (term : Term) (t : List ℚ) (t_ref : ℚ) (ell_min : ℕ) (LM : List (ℕ × ℤ))
    (d : Data) : Except (PyErr × Data) Data :=
  (List.range t.length).foldlM (fun d i =>
    match term.mode with
    | none => .error (.keyErr "mode", d)
    | some (ell, m, n, sign) =>
      match qnm_from_tuple oracle ell m n sign (chi.valAt i) (mass.valAt i) (-2) with
      | .error e => .error (e, d)
      | .ok res =>
        match term.A with
        | none => .error (.keyErr "A", d)
        | some A =>
          let expiwt := cexp (CQ.negI * res.omega * CQ.ofQ (t.getD i 0 - t_ref))
          LM.foldlM (fun d lm =>
            if lm.2 = m then
              match maskSel res.C res.ells lm.1 with
              | [] => .error (.broadcastErr, d)
              | c :: _ => .ok (addEntryData d i (LM_index lm.1 lm.2 ell_min)
                  (A * expiwt * c))
            else .ok d) d) d

/-- Processing of one term of the mode dictionary inside `data_functor`
(`ringdown.py` lines 166-228). -/
def stepTerm (oracle : Oracle) (cexp : CQ → CQ) (chi mass : MSpin)
    (t : List ℚ) (t_ref : ℚ) (ell_min : ℕ) (LM : List (ℕ × ℤ))
    (d : Data) (term : Term) : Except (PyErr × Data) Data :=
  if term.type = "QNM" then
    if chi.isArr || mass.isArr then
      qnmArrFold oracle cexp chi mass term t t_ref ell_min LM d
    else
      match term.mode with
      | none => .error (.keyErr "mode", d)
      | some (ell, m, n, sign) =>
        match qnm_from_tuple oracle ell m n sign chi.sc mass.sc (-2) with
        | .error e => .error (e, d)
        | .ok res =>
          match term.A with
          | none => .error (.keyErr "A", d)
          | some A => qnmLMFold cexp A res m t t_ref ell_min LM d
  else if term.type = "other" then
    match term.omega with
    | none => .error (.keyErr "omega", d)
    | some om =>
      match term.A with
      | none => .error (.keyErr "A", d)
      | some A =>
        match term.target with
        | none => .error (.keyErr "target mode", d)
        | some tg =>
          .ok (addColData d (LM_index tg.1 tg.2 ell_min)
            (fun r => A * cexp (CQ.negI * om * CQ.ofQ (t.getD r 0 - t_ref))))
  else .error (.valueErr "QNM term type not recognized...", d)

/-- The loop over the mode dictionary's values (`for term in
mode_dict.values()`). -/
def synthTermsFold (oracle : Oracle) (cexp : CQ → CQ) (chi mass : MSpin)
    (terms : List Term) (t : List ℚ) (t_ref : ℚ) (ell_min : ℕ)
    (LM : List (ℕ × ℤ)) (d : Data) : Except (PyErr × Data) Data :=
  terms.foldlM (stepTerm oracle cexp chi mass t t_ref ell_min LM) d

/-- `data_functor(t, LM)` from `qnm_modes` (`ringdown.py` lines 153-230):
allocate (or validate, then zero-fill) the data buffer and add every term's
contribution.  `min(LM[:, 0])` of the source is the `ell_min` of the `LM`
enumeration. -/
def data_functor (oracle : Oracle) (cexp : CQ → CQ) (chi mass : MSpin)
    (mode_dict : List (ℕ × Term)) (dest : Option Data)
    (t : List ℚ) (t_ref : ℚ) (ell_min ell_max : ℕ) : Except (PyErr × Data) Data :=
  let LM := LM_list ell_min ell_max
  match dest with
  | none =>
      synthTermsFold oracle cexp chi mass (mode_dict.map (·.2)) t t_ref ell_min LM
        (zeroData t.length LM.length)
  | some dst =>
      if dst.length = t.length ∧ ∀ row ∈ dst, row.length = LM.length then
        -- `data = dest; data.fill(0.0)`: the caller's buffer is zero-filled.
        synthTermsFold oracle cexp chi mass (mode_dict.map (·.2)) t t_ref ell_min LM
          (zeroData t.length LM.length)
      else .error (.typeErr "dest has wrong dtype or shape", dst)

/-- `qnm_modes(chi, mass, mode_dict, dest, t_0, t_ref, **kwargs)`
(`ringdown.py` lines 116-238).  The keyword arguments `t`, `ell_min`,
`ell_max` are the ones `modes_constructor` feeds back to `data_functor`;
the returned value is the waveform's data array.  `t_0` is accepted (the
docstring says the model is 0 for `t < t_0`) but the data functor never
reads it: it only appears in the constructor's label string. -/
def qnm_modes (oracle : Oracle) (cexp : CQ → CQ) (chi mass : MSpin)
    (mode_dict : List (ℕ × Term)) (dest : Option Data) (t_0 t_ref : ℚ)
    (t : List ℚ) (ell_min ell_max : ℕ) : Except (PyErr × Data) Data :=
  data_functor oracle cexp chi mass mode_dict dest t t_ref ell_min ell_max

/-- `qnm_modes_as(...)` (`ringdown.py` lines 241-294): same as `qnm_modes`
with `t`, `ell_min`, `ell_max` taken from `W_other`. -/
def qnm_modes_as (oracle : Oracle) (cexp : CQ → CQ) (chi mass : MSpin)
    (mode_dict : List (ℕ × Term)) (W_other : WM) (dest : Option Data)
    (t_0 t_ref : ℚ) : Except (PyErr × Data) Data :=
  qnm_modes oracle cexp chi mass mode_dict dest t_0 t_ref
    W_other.t W_other.ell_min W_other.ell_max

/-! ### Mismatch scorer (`waveform_mismatch`, lines 14-61) -/

/-- `scipy.integrate.trapezoid(y, x)`: trapezoidal quadrature over a
(possibly non-uniform) axis. -/
def trapz (y x : List ℚ) : ℚ :=
  ((x.zip y).zip (x.tail.zip y.tail)).foldl
    (fun acc p => acc + (p.2.1 - p.1.1) * (p.1.2 + p.2.2) / 2) 0

/-- `np.argmin(abs(t - x))`: first index of the time sample closest to `x`
(0 for an empty axis). -/
def argminAbs (ts : List ℚ) (x : ℚ) : ℕ :=
  (ts.enum.foldl
    (fun best iv => if |iv.2 - x| < best.2 then (iv.1, |iv.2 - x|) else best)
    (0, |ts.headD 0 - x|)).1

/-- Python slice `w[a:b]` on the time axis of a waveform. -/
def wslice (w : WM) (a b : ℕ) : WM :=
  { w with t := (w.t.drop a).take (b - a), data := (w.data.drop a).take (b - a) }

/-- `data[:, LM_index(L, M, ell_min)] *= 0`. -/
def zeroCol (d : Data) (j : ℤ) : Data :=
  d.map (fun row =>
    let c := wrapIx row.length j
    row.set c (row.getD c 0 * 0))

/-- The mode-subset zeroing loop of `waveform_mismatch` (lines 40-48):
for every `(L, M)` with `2 ≤ L ≤ ell_max` (the `pairs` argument is built from
`h_A_copy.ell_max` for both waveforms) not in `modes`, zero that column. -/
def zeroModesWith (pairs : List (ℕ × ℤ)) (w : WM)
    (modes : Option (List (ℕ × ℤ))) : WM :=
  match modes with
  | none => w
  | some ms =>
    let dd := pairs.foldl
      (fun dd lm => if lm ∈ ms then dd else zeroCol dd (LM_index lm.1 lm.2 w.ell_min))
      w.data
    { w with data := dd }

/-- The restriction/resampling stage of `waveform_mismatch` (lines 38-56):
returns the pair `(h_A_copy, h_B_copy)` actually integrated.  `h_A_copy` is
restricted to `[argmin|t_A - t1| + 1 : argmin|t_A - t2| + 1]`; `h_B_copy` is
interpolated onto the restricted axis when the restricted `h_A_copy` sample
count differs from `h_B_copy`'s (full) sample count, and is windowed by its
own nearest-index lookup otherwise. -/
def mismatch_core (interp : WM → List ℚ → WM) (h_A h_B : WM)
    (modes : Option (List (ℕ × ℤ))) (t1 t2 : ℚ) : WM × WM :=
  let pairs := LM_list 2 h_A.ell_max
  let hA := zeroModesWith pairs h_A modes
  let hB := zeroModesWith pairs h_B modes
  let hA' := wslice hA (argminAbs h_A.t t1 + 1) (argminAbs h_A.t t2 + 1)
  let hB' := if hA'.t.length ≠ hB.t.length
             then interp hB hA'.t
             else wslice hB (argminAbs h_B.t t1 + 1) (argminAbs h_B.t t2 + 1)
  (hA', hB')

/-- `np.sum(np.real(h_A.data * conj(h_B.data)), axis=1)`. -/
def innerReList (wA wB : WM) : List ℚ :=
  List.zipWith (fun ra rb => (List.zipWith (fun a b => (a * CQ.conj b).re) ra rb).sum)
    wA.data wB.data

/-- `w.norm()`: per-time total power `Σ_modes |a|²`. -/
def wnormList (w : WM) : List ℚ :=
  w.data.map (fun row => (row.map CQ.normSq).sum)

/-- `waveform_mismatch(h_A, h_B, modes, t1, t2)` (lines 14-61):
`1 - ∫ Re⟨A, B⟩ dt / sqrt(∫‖A‖² dt · ∫‖B‖² dt)`. -/
noncomputable def waveform_mismatch (interp : WM → List ℚ → WM) (h_A h_B : WM)
    (modes : Option (List (ℕ × ℤ))) (t1 t2 : ℚ) : ℝ :=
  let p := mismatch_core interp h_A h_B modes t1 t2
  1 - (trapz (innerReList p.1 p.2) p.1.t : ℝ) /
      Real.sqrt ((trapz (wnormList p.1) p.1.t : ℝ) * (trapz (wnormList p.2) p.2.t : ℝ))

/-! ### Least-squares fitter (`fit_ringdown_waveform_LLSQ_S2`, lines 297-420) -/

/-- One step of the `m_list` accumulation: read `term["mode"][1]` and append
it if unseen. -/
def m_step (acc : List ℤ) (kv : ℕ × Term) : Except PyErr (List ℤ) :=
  match kv.2.mode with
  | none => .error (.keyErr "mode")
  | some md => .ok (if md.2.1 ∈ acc then acc else acc ++ [md.2.1])

/-- `m_list`: the distinct azimuthal numbers of `term["mode"][1]` over the
dictionary's values, in first-appearance order. -/
def fit_m_list (fixed : List (ℕ × Term)) : Except PyErr (List ℤ) :=
  fixed.foldlM m_step []

/-- `mode_labels_m`: `(i, term)` for `enumerate(fixed_QNMs.values())` with
`term["mode"][1] == m`.  (`i` is the positional index, not the key.)
All reachable states have every `mode` field present (`fit_m_list` has
already raised otherwise), so a missing mode is simply not selected. -/
def group_m (st : List (ℕ × Term)) (m : ℤ) : List (ℕ × Term) :=
  (st.map (·.2)).enum.filter (fun p => p.2.mode.elim false (fun md => md.2.1 = m))

/-- `data_index_m`: flat column indices `LM_index(l, m, h_ring.ell_min)` for
`l` from 2 to `ell_max_m`, filtered by `modes` when given. -/
def data_index_m (ring_ell_min ring_ell_max : ℕ)
    (modes : Option (List (ℕ × ℤ))) (m : ℤ) : List ℤ :=
  match modes with
  | none => (List.range' 2 (ring_ell_max + 1 - 2)).map (fun l => LM_index l m ring_ell_min)
  | some ms => ((List.range' 2 (ring_ell_max + 1 - 2)).filter (fun l => (l, m) ∈ ms)).map
      (fun l => LM_index l m ring_ell_min)

/-- `ell_min_m` / `ell_max_m`: the ring's ℓ range, or the min/max ℓ over the
modes of azimuthal number `m` when `modes` is given (`min`/`max` of an empty
numpy array raises). -/
def ell_bounds_m (ring_ell_min ring_ell_max : ℕ)
    (modes : Option (List (ℕ × ℤ))) (m : ℤ) : Except PyErr (ℕ × ℕ) :=
  match modes with
  | none => .ok (ring_ell_min, ring_ell_max)
  | some ms =>
    match (ms.filter (fun p => p.2 = m)).map (·.1) with
    | [] => .error (.valueErr "zero-size array reduction")
    | a :: rest => .ok (rest.foldl min a, rest.foldl max a)

/-- `h_ring[:, :ell_max_m + 1]`: truncate the mode columns to ℓ ≤ `lmax`. -/
def truncEll (w : WM) (lmax : ℕ) : WM :=
  { w with ell_max := lmax,
           data := w.data.map (List.take (LM_list w.ell_min lmax).length) }

/-- `data[:, data_index_m]`: column selection (with numpy wrap-around for
negative indices). -/
def selectCols (d : Data) (idxs : List ℤ) : Data :=
  d.map (fun row => idxs.map (fun j => row.getD (wrapIx row.length j) 0))

/-- Mutation of the term object held at values-position `p`:
`term["A"] = v`. -/
def setA_pos (st : List (ℕ × Term)) (p : ℕ) (v : CQ) : List (ℕ × Term) :=
  let kv := st.getD p (0, default)
  st.set p (kv.1, { kv.2 with A := some v })

/-- `fixed_QNMs[i]["A"] = v`: dictionary lookup **by key** `i`, then mutation
of that term (KeyError when the key is absent). -/
def dict_setA_key (st : List (ℕ × Term)) (k : ℕ) (v : CQ) :
    Except PyErr (List (ℕ × Term)) :=
  if st.any (fun kv => kv.1 = k) then
    .ok (st.map (fun kv => if kv.1 = k then (kv.1, { kv.2 with A := some v }) else kv))
  else .error (.keyErr "fit write-back key")

/-- One step of the design-matrix loop (`ringdown.py` lines 381-387): set
the term's `A` to 1 in place (mutating the dictionary state), synthesize the
unit-amplitude waveform over the truncated container, and append its
selected, flattened data as the next design column. -/
def design_step (oracle : Oracle) (cexp : CQ → CQ) (chi_f M_f : ℚ)
    (trunc : WM) (didx : List ℤ) (t_0 t_ref : ℚ)
    (acc : List (ℕ × Term) × List (List CQ)) (p : ℕ) :
    Except PyErr (List (ℕ × Term) × List (List CQ)) :=
  let st1 := setA_pos acc.1 p 1
  let trm := (st1.getD p (0, default)).2
  match qnm_modes_as oracle cexp (.scalar chi_f) (.scalar M_f) [(0, trm)] trunc none
      t_0 t_ref with
  | .error e => Except.error e.1
  | .ok hdata => Except.ok (st1, acc.2 ++ [(selectCols hdata didx).flatten])

/-- The design/solve/write-back pass for one azimuthal number `m`
(`ringdown.py` lines 350-398), threading the (mutated) dictionary state:
for each term of the m-group, set its `A` to 1 in place and synthesize its
unit-amplitude column; solve the flattened least-squares system; then write
the solved amplitudes back through `fixed_QNMs[i]` where `i` is the
positional index of the term.  The check that `data_index_m` has the same
width as `ell_max_m - ell_min_m + 1` models the numpy shape constraint of
`B[:, :, mode_index] = ...` / `np.reshape`. -/
def fit_group (oracle : Oracle) (cexp : CQ → CQ)
    (lstsq : List (List CQ) → List CQ → List CQ) (h_ring : WM)
    (modes : Option (List (ℕ × ℤ))) (times : ℚ × ℚ) (chi_f M_f : ℚ)
    (t_ref : ℚ) (st : List (ℕ × Term)) (m : ℤ) :
    Except PyErr (List (ℕ × Term)) :=
  let grp := group_m st m
  match ell_bounds_m h_ring.ell_min h_ring.ell_max modes m with
  | .error e => .error e
  | .ok bounds =>
    let didx := data_index_m h_ring.ell_min h_ring.ell_max modes m
    if didx.length ≠ bounds.2 + 1 - bounds.1 then .error .broadcastErr
    else
      let trunc := truncEll h_ring bounds.2
      let obs := (selectCols trunc.data didx).flatten
      match (grp.map (·.1)).foldlM
          (design_step oracle cexp chi_f M_f trunc didx times.1 t_ref)
          ((st, []) : List (ℕ × Term) × List (List CQ)) with
      | .error e => .error e
      | .ok pair =>
        let x := lstsq pair.2 obs
        (grp.map (·.1)).enum.foldlM
          (fun st2 ci => dict_setA_key st2 ci.2 (x.getD ci.1 0)) pair.1

/-- The `modes` list used for the residual and the final mismatch call:
the caller's list, or all `(L, M)` with `2 ≤ L ≤ ell_max` when `None`
(lines 405-406). -/
def fit_modes_list (h_ring : WM) (modes : Option (List (ℕ × ℤ))) : List (ℕ × ℤ) :=
  match modes with
  | some ms => ms
  | none => LM_list 2 h_ring.ell_max

/-- `fit_ringdown_waveform_LLSQ_S2` (lines 297-420), except for the final
`waveform_mismatch` call, which is `fit_mismatch` below.  Returns the fitted
waveform's data, the normalized error
`0.5 ∫‖h_ring - h_QNM‖² dt / ∫‖h_ring‖² dt`, and the final state of the
`fixed_QNMs` dictionary — which the source mutates in place and returns. -/
def fit_rd (oracle : Oracle) (cexp : CQ → CQ)
    (lstsq : List (List CQ) → List CQ → List CQ) (h_ring : WM)
    (modes : Option (List (ℕ × ℤ))) (times : ℚ × ℚ) (chi_f M_f : ℚ)
    (fixed : List (ℕ × Term)) (t_ref : ℚ) :
    Except PyErr (Data × ℚ × List (ℕ × Term)) :=
  match fit_m_list fixed with
  | .error e => .error e
  | .ok mlist =>
    match mlist.foldlM
        (fit_group oracle cexp lstsq h_ring modes times chi_f M_f t_ref) fixed with
    | .error e => .error e
    | .ok stFinal =>
      match qnm_modes_as oracle cexp (.scalar chi_f) (.scalar M_f) stFinal h_ring
          none times.1 t_ref with
      | .error e => .error e.1
      | .ok hq =>
        let zero0 : Data := h_ring.data.map (fun row => row.map (fun z => z * 0))
        let hdiff := (fit_modes_list h_ring modes).foldl (fun dd lm =>
            let j := LM_index lm.1 lm.2 h_ring.ell_min
            setColData dd j (fun r =>
              entry h_ring.data r (wrapIx ((h_ring.data.getD r []).length) j) -
              entry hq r (wrapIx ((hq.getD r []).length) j))) zero0
        let err := 1 / 2 * trapz (hdiff.map (fun row => (row.map CQ.normSq).sum)) h_ring.t /
                   trapz (h_ring.data.map (fun row => (row.map CQ.normSq).sum)) h_ring.t
        .ok (hq, err, stFinal)

/-- The `mismatch` component of the fitter's return tuple (line 418):
`waveform_mismatch(h_ring, h_QNM, modes=modes, t1=times[0], t2=times[1])`
with `modes` already defaulted to the full list when the caller passed
`None`. -/
noncomputable def fit_mismatch (oracle : Oracle) (cexp : CQ → CQ)
    (lstsq : List (List CQ) → List CQ → List CQ) (interp : WM → List ℚ → WM)
    (h_ring : WM) (modes : Option (List (ℕ × ℤ))) (times : ℚ × ℚ)
    (chi_f M_f : ℚ) (fixed : List (ℕ × Term)) (t_ref : ℚ) : ℝ :=
  match fit_rd oracle cexp lstsq h_ring modes times chi_f M_f fixed t_ref with
  | .ok res => waveform_mismatch interp h_ring
      { t := h_ring.t, ell_min := h_ring.ell_min, ell_max := h_ring.ell_max,
        data := res.1 }
      (some (fit_modes_list h_ring modes)) times.1 times.2
  | .error _ => 0

/-! ### Specification-side helpers (used to state properties of the code) -/

/-- Vector addition. -/
def vecAdd (u v : List CQ) : List CQ := List.zipWith (· + ·) u v

/-- Scalar times vector. -/
def smulVec (a : CQ) (v : List CQ) : List CQ := v.map (a * ·)

/-- Matrix–vector product with the matrix given as its list of columns
(the linear combination `Σ_k x_k · col_k`); this is the map the least-squares
solver `np.linalg.lstsq(B, A)` inverts. -/
def matVecCols (cols : List (List CQ)) (x : List CQ) : List CQ :=
  (x.zip cols).foldr (fun p acc => vecAdd (smulVec p.1 p.2) acc)
    (List.replicate (cols.headD []).length 0)

/-- Pointwise sum of two data arrays. -/
def dataAdd (d e : Data) : Data := List.zipWith (List.zipWith (· + ·)) d e

/-- Pointwise scalar multiple of a data array. -/
def smulData (a : CQ) (d : Data) : Data := d.map (List.map (a * ·))

/-- A data array of `T` rows that all have length `L` (the numpy shape
`(T, L)` every buffer of the synthesizer has). -/
def shaped (T L : ℕ) (d : Data) : Prop :=
  d.length = T ∧ ∀ row ∈ d, row.length = L

/-- A dictionary with every term's `A` key removed: two dictionary states of
the fitter agree on `stripA` exactly when they differ only in the amplitude
fields the fitter mutates. -/
def stripA (st : List (ℕ × Term)) : List (ℕ × Term) :=
  st.map (fun kv => (kv.1, { kv.2 with A := none }))

/-- The values-positions of the m-group (`[i for i, term in
enumerate(fixed_QNMs.values()) if term["mode"][1] == m]`). -/
def gpos (st : List (ℕ × Term)) (m : ℤ) : List ℕ := (group_m st m).map (·.1)

/-- The term at values-position `p` with its amplitude set to 1, i.e. the
term whose unit-amplitude waveform gives the design-matrix column for `p`. -/
def unit_term (st : List (ℕ × Term)) (p : ℕ) : Term :=
  { (st.getD p (0, default)).2 with A := some 1 }

/-- The design matrix of the m-group as its list of columns: for each group
member (in `values()` order) the selected, flattened data of its
unit-amplitude waveform `colD p`. -/
def designCols (colD : ℕ → Data) (st : List (ℕ × Term)) (emin emax : ℕ)
    (m : ℤ) : List (List CQ) :=
  (gpos st m).map (fun p =>
    (selectCols (colD p) (data_index_m emin emax none m)).flatten)

/-- The observation vector of the m-group: the selected, flattened data of
the target waveform. -/
def obsVec (td : Data) (emin emax : ℕ) (m : ℤ) : List CQ :=
  (selectCols td (data_index_m emin emax none m)).flatten

/-- The amplitudes of the m-group members of a dictionary, in group order. -/
def ampVec (st : List (ℕ × Term)) (m : ℤ) : List CQ :=
  (gpos st m).map (fun p => (st.getD p (0, default)).2.A.getD 0)

/-- The closed-form contribution of a (scalar-parameter, QNM-type) term to
entry `(r, column-of (l0, m0))` of the synthesized data, used to state the
per-term decomposition of the synthesizer's output. -/
def termC (oracle : Oracle) (cexp : CQ → CQ) (chi M : ℚ) (tm : Term)
    (t : List ℚ) (t_ref : ℚ) (r : ℕ) (l0 : ℕ) (m0 : ℤ) : CQ :=
  match tm.mode, tm.A with
  | some (ell, mm, n, sg), some a =>
    if m0 = mm then
      match qnm_from_tuple oracle ell mm n sg chi M (-2) with
      | .ok res => a * cexp (CQ.negI * res.omega * CQ.ofQ (t.getD r 0 - t_ref)) *
          (maskSel res.C res.ells l0).headD 0
      | .error _ => 0
    else 0
  | _, _ => 0

/-! ### Concrete fixtures (for witnesses and counterexamples) -/

/-- A concrete stand-in for `np.exp` (the claims hold for every `cexp`). -/
def cexpOne : CQ → CQ := fun _ => 1

/-- A concrete oracle with `l_max = 2`: mixing array `[1]` over
`ells = [2]` (for `s = -2`, `|m| = 2`). -/
def oracleL2 : Oracle := fun _ _ _ _ => ⟨2, fun _ => (⟨1, 0⟩, [⟨1, 0⟩])⟩

/-- A concrete oracle with `l_max = 3`: mixing array `[1, 1]` over
`ells = [2, 3]` (for `s = -2`, `|m| = 2`). -/
def oracleL3 : Oracle := fun _ _ _ _ => ⟨3, fun _ => (⟨1, 0⟩, [⟨1, 0⟩, ⟨1, 0⟩])⟩

/-- A concrete interpolator that is exact at the knots: at a requested time
that is a sample of `w` it returns that sample's row (splines interpolate
their data exactly at the nodes). -/
def sliceInterp (w : WM) (ts : List ℚ) : WM :=
  { t := ts, ell_min := w.ell_min, ell_max := w.ell_max,
    data := ts.map (fun tau =>
      match w.t.indexOf? tau with
      | some i => w.data.getD i []
      | none => List.replicate (w.data.headD []).length 0) }

/-- A (bad) interpolator that returns zeros; used to exhibit dependence of
the mismatch on the interpolation step. -/
def zeroInterpW (w : WM) (ts : List ℚ) : WM :=
  { t := ts, ell_min := w.ell_min, ell_max := w.ell_max,
    data := ts.map (fun _ => List.replicate (w.data.headD []).length 0) }

/-- A QNM-type term with the given mode label and amplitude field. -/
def qnmT (md : ℕ × ℤ × ℕ × ℤ) (a : Option CQ) : Term :=
  ⟨"QNM", some md, a, none, none⟩

/-- An "other"-type term with explicit frequency and target mode. -/
def otherT (tg : ℕ × ℤ) (om a : CQ) : Term :=
  ⟨"other", none, some a, some om, some tg⟩

/-- A term whose type is neither `QNM` nor `other`. -/
def badTerm : Term := ⟨"bogus", none, none, none, none⟩

/-- A 4-sample single-column waveform of constant unit amplitude. -/
def wmAB : WM := ⟨[0, 1, 2, 3], 2, 2, [[1], [1], [1], [1]]⟩

/-- A 3-sample single-column waveform of constant unit amplitude, on the
time axis `[1, 2, 3]`. -/
def wmB3 : WM := ⟨[1, 2, 3], 2, 2, [[1], [1], [1]]⟩

/-- A 3-sample all-zero waveform. -/
def wmZero : WM := ⟨[0, 1, 2], 2, 2, [[0], [0], [0]]⟩

/-- A waveform with the time axis `[0, 1, ..., 99]`. -/
def wmT100 : WM := ⟨(List.range 100).map (fun k => (k : ℚ)), 2, 2, []⟩

/-- A waveform with the time axis `[0, 1, 2]`. -/
def wmT3 : WM := ⟨[0, 1, 2], 2, 2, []⟩

end Ringdown


namespace Ringdown

/-! # Theorems -/

/-! ## C7 — Mode Oracle Adapter sign symmetry -/

theorem getD_zip_map {α β γ : Type} (l1 : List α) (l2 : List β)
    (f : α × β → γ) (k : ℕ) (d1 : α) (d2 : β) (dflt : γ)
    (hk : k < ((l1.zip l2).map f).length) :
    ((l1.zip l2).map f).getD k dflt =
      f (l1.getD k d1, l2.getD k d2) := by
  rw [List.length_map, List.length_zip] at hk
  have h1 : k < l1.length := lt_of_lt_of_le hk (min_le_left _ _)
  have h2 : k < l2.length := lt_of_lt_of_le hk (min_le_right _ _)
  rw [List.getD_eq_getElem _ _ (by simpa [List.length_zip] using hk),
      List.getElem_map, List.getElem_zip,
      List.getD_eq_getElem _ _ h1, List.getD_eq_getElem _ _ h2]

/-- C7: for sign = −1 the adapter queries the oracle with (ℓ, −m, n) and
returns the negated conjugate of that query's frequency divided by mass,
with mixing coefficients conjugated and multiplied by (−1)^(ℓ+ℓ′) at each
mixing-ells index ℓ′; for sign = +1 it queries (ℓ, m, n) directly and only
divides the frequency by mass. -/
theorem C7_adapter_sign_symmetry (oracle : Oracle) (ell : ℕ) (m : ℤ) (n : ℕ)
    (chi mass : ℚ) (s : ℤ) :
    (∃ r, qnm_from_tuple oracle ell m n (-1) chi mass s = .ok r ∧
      r.omega = CQ.divQ (-(CQ.conj ((oracle s ell (-m) n).atChi chi).1)) mass ∧
      r.ells = qnm_angular_ells s m (oracle s ell (-m) n).l_max ∧
      ∀ k, k < r.C.length →
        r.C.getD k 0 = (-1 : CQ) ^ (ell + r.ells.getD k 0) *
          CQ.conj (((oracle s ell (-m) n).atChi chi).2.getD k 0)) ∧
    (∃ r, qnm_from_tuple oracle ell m n 1 chi mass s = .ok r ∧
      r.omega = CQ.divQ ((oracle s ell m n).atChi chi).1 mass ∧
      r.C = ((oracle s ell m n).atChi chi).2 ∧
      r.ells = qnm_angular_ells s m (oracle s ell m n).l_max) := by
  have hrun : qnm_from_tuple oracle ell m n (-1) chi mass s = .ok
      ⟨CQ.divQ (-(CQ.conj ((oracle s ell (-m) n).atChi chi).1)) mass,
       ((qnm_angular_ells s m (oracle s ell (-m) n).l_max).zip
          (((oracle s ell (-m) n).atChi chi).2)).map
            (fun p => (-1 : CQ) ^ (ell + p.1) * CQ.conj p.2),
       qnm_angular_ells s m (oracle s ell (-m) n).l_max⟩ := by
    norm_num [qnm_from_tuple]
  have hrun1 : qnm_from_tuple oracle ell m n 1 chi mass s = .ok
      ⟨CQ.divQ ((oracle s ell m n).atChi chi).1 mass,
       ((oracle s ell m n).atChi chi).2,
       qnm_angular_ells s m (oracle s ell m n).l_max⟩ := by
    norm_num [qnm_from_tuple]
  refine ⟨⟨_, hrun, rfl, rfl, ?_⟩, ⟨_, hrun1, rfl, rfl, rfl⟩⟩
  intro k hk
  have := getD_zip_map (qnm_angular_ells s m (oracle s ell (-m) n).l_max)
    (((oracle s ell (-m) n).atChi chi).2)
    (fun p => (-1 : CQ) ^ (ell + p.1) * CQ.conj p.2) k 0 0 0 hk
  simp only [List.length_map, List.length_zip] at hk
  have h1 : k < (qnm_angular_ells s m (oracle s ell (-m) n).l_max).length :=
    lt_of_lt_of_le hk (min_le_left _ _)
  simpa using this

/-- Witness for C7 at a concrete oracle and mode label. -/
theorem C7_adapter_sign_symmetry_witness :
    (∃ r, qnm_from_tuple oracleL2 2 2 0 (-1) (7/10) 1 (-2) = .ok r ∧
      r.omega = CQ.divQ (-(CQ.conj ((oracleL2 (-2) 2 (-2) 0).atChi (7/10)).1)) 1 ∧
      r.ells = qnm_angular_ells (-2) 2 (oracleL2 (-2) 2 (-2) 0).l_max ∧
      ∀ k, k < r.C.length →
        r.C.getD k 0 = (-1 : CQ) ^ (2 + r.ells.getD k 0) *
          CQ.conj (((oracleL2 (-2) 2 (-2) 0).atChi (7/10)).2.getD k 0)) ∧
    (∃ r, qnm_from_tuple oracleL2 2 2 0 1 (7/10) 1 (-2) = .ok r ∧
      r.omega = CQ.divQ ((oracleL2 (-2) 2 2 0).atChi (7/10)).1 1 ∧
      r.C = ((oracleL2 (-2) 2 2 0).atChi (7/10)).2 ∧
      r.ells = qnm_angular_ells (-2) 2 (oracleL2 (-2) 2 2 0).l_max) :=
  C7_adapter_sign_symmetry oracleL2 2 2 0 (7/10) 1 (-2)

end Ringdown

namespace Ringdown

/-! ## C10 — `t_0` has no effect on the synthesized data -/

/-- C10: the synthesizer's output is identical for any two values of `t_0`
(the parameter is accepted but never read by the data functor), and in
particular the output is not zeroed for times before `t_0`: at `t = 0` with
`t_0 = 10` a unit-amplitude term still contributes a nonzero value. -/
theorem C10_t0_has_no_effect :
    (∀ (oracle : Oracle) (cexp : CQ → CQ) (chi mass : MSpin)
        (mode_dict : List (ℕ × Term)) (dest : Option Data) (t_0 t_0' t_ref : ℚ)
        (t : List ℚ) (ell_min ell_max : ℕ),
      qnm_modes oracle cexp chi mass mode_dict dest t_0 t_ref t ell_min ell_max =
        qnm_modes oracle cexp chi mass mode_dict dest t_0' t_ref t ell_min ell_max) ∧
    qnm_modes oracleL2 cexpOne (.scalar (7/10)) (.scalar 1)
      [(0, otherT (2, 2) 0 1)] none 10 0 [0] 2 2 = .ok [[0, 0, 0, 0, 1]] :=
  ⟨fun _ _ _ _ _ _ _ _ _ _ _ _ => rfl, by with_unfolding_all rfl⟩

/-! ## C6 — window boundary arithmetic of the mismatch scorer -/

theorem foldl_argmin_lt (n : ℕ) (x : ℚ) (l : List (ℕ × ℚ)) (init : ℕ × ℚ)
    (hi : init.1 < n) (hl : ∀ p ∈ l, p.1 < n) :
    (l.foldl (fun best iv => if |iv.2 - x| < best.2 then (iv.1, |iv.2 - x|) else best)
      init).1 < n := by
  induction l generalizing init with
  | nil => exact hi
  | cons p l ih =>
    refine ih _ ?_ (fun q hq => hl q (List.mem_cons_of_mem _ hq))
    by_cases hc : |p.2 - x| < init.2
    · simpa [hc] using hl p (List.mem_cons_self p l)
    · simpa [hc] using hi

theorem argminAbs_lt (ts : List ℚ) (x : ℚ) (h : ts ≠ []) :
    argminAbs ts x < ts.length := by
  unfold argminAbs
  refine foldl_argmin_lt ts.length x ts.enum (0, |ts.headD 0 - x|) ?_ ?_
  · simpa using List.length_pos.mpr h
  · intro p hp
    simpa using List.fst_lt_of_mem_enum hp

theorem slice_t_as_indices (l : List ℚ) (a b : ℕ) (hb : b ≤ l.length) :
    (l.drop a).take (b - a) = (List.range' a (b - a)).map (fun j => l.getD j 0) := by
  apply List.ext_getElem
  · simp only [List.length_take, List.length_drop, List.length_map, List.length_range']
    omega
  · intro i h1 h2
    simp only [List.length_take, List.length_drop] at h1
    have hia : a + i < l.length := by omega
    simp only [List.getElem_take, List.getElem_drop, List.getElem_map, List.getElem_range',
      one_mul, mul_one]
    rw [List.getD_eq_getElem _ _ hia]

/-- C6: the scorer restricts waveform A to the index window
`[argmin|t - t1| + 1, argmin|t - t2| + 1)`: the retained time samples are
exactly those with original indices in that half-open range, the
`t1`-closest sample is excluded (every retained index is strictly larger),
and for `t = [0, ..., 99]`, `t1 = 0`, `t2 = 100` the retained indices are
1 through 99. -/
theorem C6_window_off_by_one :
    (∀ (interp : WM → List ℚ → WM) (W : WM) (t1 t2 : ℚ), W.t ≠ [] →
      (mismatch_core interp W W none t1 t2).1.t =
        (List.range' (argminAbs W.t t1 + 1)
          (argminAbs W.t t2 + 1 - (argminAbs W.t t1 + 1))).map (fun j => W.t.getD j 0) ∧
      ∀ j ∈ List.range' (argminAbs W.t t1 + 1)
          (argminAbs W.t t2 + 1 - (argminAbs W.t t1 + 1)),
        argminAbs W.t t1 < j) ∧
    (∀ interp, (mismatch_core interp wmT100 wmT100 none 0 100).1.t =
      (List.range' 1 99).map (fun k => (k : ℚ))) := by
  constructor
  · intro interp W t1 t2 ht
    constructor
    · have h2 : argminAbs W.t t2 + 1 ≤ W.t.length :=
        Nat.succ_le_of_lt (argminAbs_lt W.t t2 ht)
      simpa [mismatch_core, zeroModesWith, wslice] using
        slice_t_as_indices W.t (argminAbs W.t t1 + 1) (argminAbs W.t t2 + 1) h2
    · intro j hj
      have := (List.mem_range'_1.mp hj).1
      omega
  · intro interp
    set_option maxRecDepth 100000 in with_unfolding_all rfl

/-- Witness for the general part of C6 on the concrete axis `[0, 1, 2]`. -/
theorem C6_window_off_by_one_witness :
    (mismatch_core sliceInterp wmT3 wmT3 none 0 2).1.t =
      (List.range' (argminAbs wmT3.t 0 + 1)
        (argminAbs wmT3.t 2 + 1 - (argminAbs wmT3.t 0 + 1))).map (fun j => wmT3.t.getD j 0) ∧
    ∀ j ∈ List.range' (argminAbs wmT3.t 0 + 1)
        (argminAbs wmT3.t 2 + 1 - (argminAbs wmT3.t 0 + 1)),
      argminAbs wmT3.t 0 < j :=
  C6_window_off_by_one.1 sliceInterp wmT3 0 2 (by with_unfolding_all simp [wmT3])

end Ringdown

namespace Ringdown

/-! ## C5 — the resampling decision of the mismatch scorer -/

theorem zeroModesWith_t (pairs : List (ℕ × ℤ)) (w : WM)
    (modes : Option (List (ℕ × ℤ))) : (zeroModesWith pairs w modes).t = w.t := by
  cases modes <;> rfl

/-- C5 (amended): the decision to resample waveform B is made by comparing
the restricted waveform A sample count against waveform B's FULL
(pre-restriction) sample count, not its restricted count; when the
restricted-A count equals B's full count, no interpolation occurs — B is
windowed by its own nearest-index lookup and the score does not depend on
the interpolator. -/
theorem C5_amended_no_interp_when_counts_match (h_A h_B : WM)
    (modes : Option (List (ℕ × ℤ))) (t1 t2 : ℚ)
    (h : (wslice (zeroModesWith (LM_list 2 h_A.ell_max) h_A modes)
            (argminAbs h_A.t t1 + 1) (argminAbs h_A.t t2 + 1)).t.length = h_B.t.length)
    (interp1 interp2 : WM → List ℚ → WM) :
    waveform_mismatch interp1 h_A h_B modes t1 t2 =
      waveform_mismatch interp2 h_A h_B modes t1 t2 := by
  have hcond : ¬((wslice (zeroModesWith (LM_list 2 h_A.ell_max) h_A modes)
      (argminAbs h_A.t t1 + 1) (argminAbs h_A.t t2 + 1)).t.length ≠
      (zeroModesWith (LM_list 2 h_A.ell_max) h_B modes).t.length) := by
    rw [zeroModesWith_t]
    exact fun hne => hne h
  simp only [waveform_mismatch, mismatch_core, if_neg hcond]

/-- Witness for C5 (amended): restricted A has 3 samples and B has 3 samples
in total, so the score is interpolator-independent. -/
theorem C5_amended_witness :
    waveform_mismatch zeroInterpW wmAB wmB3 none 0 3 =
      waveform_mismatch sliceInterp wmAB wmB3 none 0 3 :=
  C5_amended_no_interp_when_counts_match wmAB wmB3 none 0 3
    (by with_unfolding_all rfl) zeroInterpW sliceInterp

/-- C5 (counterexample): for two waveforms on the same 4-sample axis with
window `[0, 3]`, the restricted sample counts agree (both are 3), so the
claim says waveform B is independently windowed (no interpolation); but the
code compares against B's full count (4 ≠ 3) and interpolates, so the score
depends on the interpolator. -/
theorem C5_counterexample :
    (wslice (zeroModesWith (LM_list 2 wmAB.ell_max) wmAB none)
        (argminAbs wmAB.t 0 + 1) (argminAbs wmAB.t 3 + 1)).t.length = 3 ∧
    wmAB.t.length = 4 ∧
    waveform_mismatch sliceInterp wmAB wmAB none 0 3 ≠
      waveform_mismatch zeroInterpW wmAB wmAB none 0 3 := by
  refine ⟨by with_unfolding_all rfl, by with_unfolding_all rfl, ?_⟩
  have h1 : mismatch_core sliceInterp wmAB wmAB none 0 3 = (wmB3, wmB3) := by
    with_unfolding_all rfl
  have h2 : mismatch_core zeroInterpW wmAB wmAB none 0 3 =
      (wmB3, ⟨[1, 2, 3], 2, 2, [[0], [0], [0]]⟩) := by
    with_unfolding_all rfl
  have e1 : trapz (innerReList wmB3 wmB3) wmB3.t = 2 := by with_unfolding_all rfl
  have e2 : trapz (wnormList wmB3) wmB3.t = 2 := by with_unfolding_all rfl
  have e3 : trapz (innerReList wmB3 ⟨[1, 2, 3], 2, 2, [[0], [0], [0]]⟩) wmB3.t = 0 := by
    with_unfolding_all rfl
  have e4 : trapz (wnormList ⟨[1, 2, 3], 2, 2, [[0], [0], [0]]⟩)
      (WM.t ⟨[1, 2, 3], 2, 2, [[0], [0], [0]]⟩) = 0 := by with_unfolding_all rfl
  simp only [waveform_mismatch, h1, h2, e1, e2, e3, e4]
  rw [show ((2 : ℚ) : ℝ) = 2 by norm_num, show ((0 : ℚ) : ℝ) = 0 by norm_num,
    show (2 : ℝ) * 2 = 4 by norm_num,
    show Real.sqrt 4 = 2 by
      rw [show (4 : ℝ) = 2 ^ 2 by norm_num, Real.sqrt_sq (by norm_num : (0 : ℝ) ≤ 2)]]
  norm_num

end Ringdown

namespace Ringdown

/-! ## C9 — mismatch of identical waveforms -/

theorem mul_conj_re (a : CQ) : (a * CQ.conj a).re = CQ.normSq a := by
  simp [CQ.mul_def, CQ.conj, CQ.normSq]

theorem innerReList_self (w : WM) : innerReList w w = wnormList w := by
  unfold innerReList wnormList
  rw [List.zipWith_same]
  apply List.map_congr_left
  intro row hrow
  rw [List.zipWith_same]
  apply congrArg
  apply List.map_congr_left
  intro a ha
  exact mul_conj_re a

/-- If the two integrated waveforms coincide and the windowed power integral
is positive, the score `1 - N / sqrt(N * N)` vanishes. -/
theorem mismatch_self_eq_zero (interp : WM → List ℚ → WM) (W : WM)
    (modes : Option (List (ℕ × ℤ))) (t1 t2 : ℚ)
    (hB : (mismatch_core interp W W modes t1 t2).2 = (mismatch_core interp W W modes t1 t2).1)
    (hpos : 0 < trapz (wnormList (mismatch_core interp W W modes t1 t2).1)
        (mismatch_core interp W W modes t1 t2).1.t) :
    waveform_mismatch interp W W modes t1 t2 = 0 := by
  simp only [waveform_mismatch]
  rw [hB, innerReList_self]
  have hN : (0 : ℝ) <
      ((trapz (wnormList (mismatch_core interp W W modes t1 t2).1)
        (mismatch_core interp W W modes t1 t2).1.t : ℚ) : ℝ) := by
    exact_mod_cast hpos
  rw [Real.sqrt_mul_self hN.le, div_self hN.ne']
  norm_num

/-- C9 (amended): for every waveform A, window and mode subset,
mismatch(A, A) = 0 — provided the windowed power integral is positive
(an all-zero window gives 0/0, i.e. nan in numpy, not 0) and the external
interpolator reproduces the restricted samples exactly (splines are exact at
their knots; the code always takes the interpolation branch here because it
compares the restricted count with the full count). -/
theorem C9_amended_mismatch_self_zero (interp : WM → List ℚ → WM) (W : WM)
    (modes : Option (List (ℕ × ℤ))) (t1 t2 : ℚ)
    (hinterp : interp (zeroModesWith (LM_list 2 W.ell_max) W modes)
        (wslice (zeroModesWith (LM_list 2 W.ell_max) W modes)
          (argminAbs W.t t1 + 1) (argminAbs W.t t2 + 1)).t =
      wslice (zeroModesWith (LM_list 2 W.ell_max) W modes)
        (argminAbs W.t t1 + 1) (argminAbs W.t t2 + 1))
    (hpos : 0 < trapz (wnormList (wslice (zeroModesWith (LM_list 2 W.ell_max) W modes)
          (argminAbs W.t t1 + 1) (argminAbs W.t t2 + 1)))
        (wslice (zeroModesWith (LM_list 2 W.ell_max) W modes)
          (argminAbs W.t t1 + 1) (argminAbs W.t t2 + 1)).t) :
    waveform_mismatch interp W W modes t1 t2 = 0 := by
  apply mismatch_self_eq_zero
  · simp only [mismatch_core]
    split
    · exact hinterp
    · rfl
  · simpa only [mismatch_core] using hpos

/-- Witness for C9 (amended) on a concrete nonzero waveform. -/
theorem C9_amended_witness :
    (sliceInterp (zeroModesWith (LM_list 2 wmAB.ell_max) wmAB none)
        (wslice (zeroModesWith (LM_list 2 wmAB.ell_max) wmAB none)
          (argminAbs wmAB.t 0 + 1) (argminAbs wmAB.t 3 + 1)).t =
      wslice (zeroModesWith (LM_list 2 wmAB.ell_max) wmAB none)
        (argminAbs wmAB.t 0 + 1) (argminAbs wmAB.t 3 + 1)) ∧
    waveform_mismatch sliceInterp wmAB wmAB none 0 3 = 0 := by
  have h1 : sliceInterp (zeroModesWith (LM_list 2 wmAB.ell_max) wmAB none)
      (wslice (zeroModesWith (LM_list 2 wmAB.ell_max) wmAB none)
        (argminAbs wmAB.t 0 + 1) (argminAbs wmAB.t 3 + 1)).t =
      wslice (zeroModesWith (LM_list 2 wmAB.ell_max) wmAB none)
        (argminAbs wmAB.t 0 + 1) (argminAbs wmAB.t 3 + 1) := by
    with_unfolding_all rfl
  have h2 : trapz (wnormList (wslice (zeroModesWith (LM_list 2 wmAB.ell_max) wmAB none)
      (argminAbs wmAB.t 0 + 1) (argminAbs wmAB.t 3 + 1)))
      (wslice (zeroModesWith (LM_list 2 wmAB.ell_max) wmAB none)
        (argminAbs wmAB.t 0 + 1) (argminAbs wmAB.t 3 + 1)).t = 2 := by
    with_unfolding_all rfl
  exact ⟨h1, C9_amended_mismatch_self_zero sliceInterp wmAB none 0 3 h1
    (by rw [h2]; norm_num)⟩

/-- C9 (counterexample): for the all-zero waveform the claim fails — the
score is `1 - 0 / sqrt(0 * 0)`, which is 1 in total exact arithmetic
(nan in numpy), not 0. -/
theorem C9_counterexample :
    waveform_mismatch sliceInterp wmZero wmZero none 0 100 = 1 ∧ (1 : ℝ) ≠ 0 := by
  constructor
  · have h : mismatch_core sliceInterp wmZero wmZero none 0 100 =
        (⟨[1, 2], 2, 2, [[0], [0]]⟩, ⟨[1, 2], 2, 2, [[0], [0]]⟩) := by
      with_unfolding_all rfl
    have e0 : trapz (wnormList (⟨[1, 2], 2, 2, [[0], [0]]⟩ : WM))
        (WM.t ⟨[1, 2], 2, 2, [[0], [0]]⟩) = 0 := by with_unfolding_all rfl
    have e1 : trapz (innerReList (⟨[1, 2], 2, 2, [[0], [0]]⟩ : WM)
        ⟨[1, 2], 2, 2, [[0], [0]]⟩) (WM.t ⟨[1, 2], 2, 2, [[0], [0]]⟩) = 0 := by
      with_unfolding_all rfl
    simp only [waveform_mismatch, h, e0, e1]
    norm_num
  · norm_num

end Ringdown

namespace Ringdown

/-! ## C8 — invalid sign / invalid term type, and partial writes -/

theorem ebind_ok {ε α β : Type} (a : α) (f : α → Except ε β) :
    (Except.ok a >>= f) = f a := rfl

theorem ebind_err {ε α β : Type} (e : ε) (f : α → Except ε β) :
    ((Except.error e : Except ε α) >>= f) = Except.error e := rfl

theorem synthTermsFold_append (oracle : Oracle) (cexp : CQ → CQ) (chi mass : MSpin)
    (ts1 ts2 : List Term) (t : List ℚ) (t_ref : ℚ) (ell_min : ℕ)
    (LM : List (ℕ × ℤ)) (d : Data) :
    synthTermsFold oracle cexp chi mass (ts1 ++ ts2) t t_ref ell_min LM d =
      (synthTermsFold oracle cexp chi mass ts1 t t_ref ell_min LM d) >>=
        (synthTermsFold oracle cexp chi mass ts2 t t_ref ell_min LM) := by
  unfold synthTermsFold
  rw [List.foldlM_append]

/-- C8 (amended): the adapter fails with ValueError for every sign other
than ±1, and the synthesizer fails with ValueError at the first term whose
type is neither QNM nor other; however the failure is NOT free of partial
output: a caller-supplied destination buffer has already been zero-filled
and already contains the contributions of the terms preceding the offending
one (the error state `S` below), and the same partially-written buffer
arises with freshly allocated storage. -/
theorem C8_amended_invalid_inputs (oracle : Oracle) (cexp : CQ → CQ)
    (chi mass : MSpin) (t : List ℚ) (t_ref : ℚ) (ell_min ell_max : ℕ)
    (ell : ℕ) (m : ℤ) (n : ℕ) (sign : ℤ) (chiq massq : ℚ) (s : ℤ)
    (dict : List (ℕ × Term)) (pre rest : List Term) (bad : Term) (S : Data)
    (dst : Data)
    (hsign1 : sign ≠ 1) (hsign2 : sign ≠ -1)
    (hbad1 : bad.type ≠ "QNM") (hbad2 : bad.type ≠ "other")
    (hdict : dict.map (·.2) = pre ++ bad :: rest)
    (hdst : dst.length = t.length ∧
      ∀ row ∈ dst, row.length = (LM_list ell_min ell_max).length)
    (hpre : synthTermsFold oracle cexp chi mass pre t t_ref ell_min
        (LM_list ell_min ell_max)
        (zeroData t.length (LM_list ell_min ell_max).length) = .ok S) :
    qnm_from_tuple oracle ell m n sign chiq massq s =
      .error (.valueErr "Last element of mode label must be +1 or -1") ∧
    data_functor oracle cexp chi mass dict (some dst) t t_ref ell_min ell_max =
      .error (.valueErr "QNM term type not recognized...", S) ∧
    data_functor oracle cexp chi mass dict none t t_ref ell_min ell_max =
      .error (.valueErr "QNM term type not recognized...", S) := by
  have hstep : ∀ d : Data, stepTerm oracle cexp chi mass t t_ref ell_min
      (LM_list ell_min ell_max) d bad =
      .error (.valueErr "QNM term type not recognized...", d) := by
    intro d
    unfold stepTerm
    rw [if_neg (by simpa using hbad1), if_neg (by simpa using hbad2)]
  have hfold : synthTermsFold oracle cexp chi mass (pre ++ bad :: rest) t t_ref ell_min
      (LM_list ell_min ell_max)
      (zeroData t.length (LM_list ell_min ell_max).length) =
      .error (.valueErr "QNM term type not recognized...", S) := by
    rw [synthTermsFold_append, hpre, ebind_ok]
    unfold synthTermsFold
    rw [List.foldlM_cons, hstep S, ebind_err]
  refine ⟨?_, ?_, ?_⟩
  · unfold qnm_from_tuple
    rw [if_neg hsign1, if_neg hsign2]
  · simp only [data_functor]
    rw [if_pos hdst, hdict]
    exact hfold
  · simp only [data_functor]
    rw [hdict]
    exact hfold

/-- Witness for C8 (amended) with a concrete bad sign, bad term, and
destination buffer. -/
theorem C8_amended_invalid_inputs_witness :
    qnm_from_tuple oracleL2 2 2 0 5 (7/10) 1 (-2) =
      .error (.valueErr "Last element of mode label must be +1 or -1") ∧
    data_functor oracleL2 cexpOne (.scalar 1) (.scalar 1)
      [(0, otherT (2, 2) 0 1), (1, badTerm)]
      (some [[⟨5, 5⟩, ⟨5, 5⟩, ⟨5, 5⟩, ⟨5, 5⟩, ⟨5, 5⟩]]) [0] 0 2 2 =
      .error (.valueErr "QNM term type not recognized...", [[0, 0, 0, 0, 1]]) ∧
    data_functor oracleL2 cexpOne (.scalar 1) (.scalar 1)
      [(0, otherT (2, 2) 0 1), (1, badTerm)] none [0] 0 2 2 =
      .error (.valueErr "QNM term type not recognized...", [[0, 0, 0, 0, 1]]) :=
  C8_amended_invalid_inputs oracleL2 cexpOne (.scalar 1) (.scalar 1) [0] 0 2 2
    2 2 0 5 (7/10) 1 (-2)
    [(0, otherT (2, 2) 0 1), (1, badTerm)] [otherT (2, 2) 0 1] [] badTerm
    [[0, 0, 0, 0, 1]] [[⟨5, 5⟩, ⟨5, 5⟩, ⟨5, 5⟩, ⟨5, 5⟩, ⟨5, 5⟩]]
    (by decide) (by decide) (by decide) (by decide) rfl
    (by constructor <;> with_unfolding_all decide)
    (by with_unfolding_all rfl)

/-- C8 (counterexample): the claim's "no partial output" is false — with a
caller-supplied destination buffer full of sentinel values, a dictionary
whose second term has an unrecognized type raises the ValueError only after
the buffer has been zero-filled and the first term's contribution written:
at the error the buffer is `[[0, 0, 0, 0, 1]]`, not the original sentinel
contents. -/
theorem C8_counterexample :
    data_functor oracleL2 cexpOne (.scalar 1) (.scalar 1)
      [(0, otherT (2, 2) 0 1), (1, badTerm)]
      (some [[⟨5, 5⟩, ⟨5, 5⟩, ⟨5, 5⟩, ⟨5, 5⟩, ⟨5, 5⟩]]) [0] 0 2 2 =
      .error (.valueErr "QNM term type not recognized...", [[0, 0, 0, 0, 1]]) ∧
    ([[0, 0, 0, 0, 1]] : Data) ≠ [[⟨5, 5⟩, ⟨5, 5⟩, ⟨5, 5⟩, ⟨5, 5⟩, ⟨5, 5⟩]] :=
  ⟨by with_unfolding_all rfl, by with_unfolding_all decide⟩

/-! ## C4 — QNM contribution when ℓ′ is absent from the mixing-ells array -/

/-- C4: contrary to the claim (and the spec), when a mode column `(ℓ′, m)`
with matching `m` has no entry in the mixing-ells array, the synthesis does
NOT add zero and succeed: `c_l` remains an empty selection and the
`data[:, ...] += A * expiwt * c_l` update raises a numpy broadcast error.
Here `ell_max = 3` with an oracle whose `l_max = 2` (`ells = [2]`): the
column (2, 2) is written first, then the column (3, 2) fails, so the run
errors with the partially written buffer. -/
theorem C4_broadcast_error_when_ell_missing :
    qnm_modes oracleL2 cexpOne (.scalar (7/10)) (.scalar 1)
      [(0, qnmT (2, 2, 0, 1) (some 1))] none 0 0 [0] 2 3 =
      .error (.broadcastErr, [[0, 0, 0, 0, 1, 0, 0, 0, 0, 0, 0, 0]]) := by
  with_unfolding_all rfl

end Ringdown

namespace Ringdown

/-! ## C2, C3 — counterexamples: the fitter mutates its input dictionary,
and the write-back depends on the dictionary keys -/

/-- C2 (counterexample): the input dictionary (a single QNM term with no
amplitude key) is NOT left unchanged: the fitter writes `A` into the very
term objects of the caller's dictionary and returns that dictionary — after
the call the dictionary differs from its pre-call state. -/
theorem C2_counterexample :
    (fit_rd oracleL2 cexpOne (fun _ _ => [⟨4, 0⟩]) ⟨[0, 1], 2, 2, zeroData 2 5⟩
        none (0, 1) (7/10) 1 [(0, qnmT (2, 2, 0, 1) none)] 0).toOption.map
      (fun r => r.2.2) = some [(0, qnmT (2, 2, 0, 1) (some ⟨4, 0⟩))] ∧
    [(0, qnmT (2, 2, 0, 1) none)] ≠ [(0, qnmT (2, 2, 0, 1) (some ⟨4, 0⟩))] :=
  ⟨by with_unfolding_all rfl, by with_unfolding_all decide⟩

/-- C3 (counterexample): with keys `[1, 0]` (in insertion order), the
write-back `fixed_QNMs[i]["A"] = C[0][count]` indexes the dictionary by the
positional index `i` used as a key: the amplitude solved for design column 0
(the term at values-position 0, stored under key 1) is written onto the term
stored under KEY 0 — i.e. onto the other term.  With a solver returning
`[2, 3]`, the term that produced column 0 ends with amplitude 3 and the term
that produced column 1 ends with amplitude 2. -/
theorem C3_counterexample :
    (fit_rd oracleL3 cexpOne (fun _ _ => [⟨2, 0⟩, ⟨3, 0⟩]) ⟨[0, 1], 2, 3, zeroData 2 12⟩
        none (0, 1) (7/10) 1
        [(1, qnmT (2, 2, 0, 1) none), (0, qnmT (3, 2, 0, 1) none)] 0).toOption.map
      (fun r => r.2.2) =
      some [(1, qnmT (2, 2, 0, 1) (some ⟨3, 0⟩)), (0, qnmT (3, 2, 0, 1) (some ⟨2, 0⟩))] ∧
    (∀ (B : List (List CQ)) (v : List CQ),
      ((fun (_ : List (List CQ)) (_ : List CQ) => [(⟨2, 0⟩ : CQ), ⟨3, 0⟩]) B v).getD 0 0 =
        ⟨2, 0⟩) ∧
    some ⟨3, 0⟩ ≠ (some (⟨2, 0⟩ : CQ)) :=
  ⟨by with_unfolding_all rfl, fun _ _ => rfl, by with_unfolding_all decide⟩

end Ringdown

namespace Ringdown

/-! ## Dictionary-state lemmas for the fitter -/

theorem length_setA_pos (st : List (ℕ × Term)) (p : ℕ) (v : CQ) :
    (setA_pos st p v).length = st.length := by
  simp [setA_pos]

theorem getD_setA_pos_self (st : List (ℕ × Term)) (p : ℕ) (v : CQ)
    (h : p < st.length) :
    (setA_pos st p v).getD p (0, default) =
      ((st.getD p (0, default)).1, { (st.getD p (0, default)).2 with A := some v }) := by
  unfold setA_pos
  rw [List.getD_eq_getElem _ _ (by simpa using h), List.getElem_set_self]

theorem getD_setA_pos_ne (st : List (ℕ × Term)) (p q : ℕ) (v : CQ) (h : q ≠ p) :
    (setA_pos st p v).getD q (0, default) = st.getD q (0, default) := by
  unfold setA_pos
  by_cases hq : q < st.length
  · rw [List.getD_eq_getElem _ _ (by simpa using hq), List.getD_eq_getElem _ _ hq]
    exact List.getElem_set_ne (fun hh => h hh.symm) _
  · rw [List.getD_eq_default _ _ (by simpa using Nat.le_of_not_lt hq),
        List.getD_eq_default _ _ (Nat.le_of_not_lt hq)]

theorem unit_term_setA_pos (st : List (ℕ × Term)) (p q : ℕ) (v : CQ) :
    unit_term (setA_pos st p v) q = unit_term st q := by
  unfold unit_term
  by_cases h : q = p
  · subst h
    by_cases hq : q < st.length
    · rw [getD_setA_pos_self st q v hq]
    · unfold setA_pos
      rw [List.set_eq_of_length_le (by simpa using Nat.le_of_not_lt hq)]
  · rw [getD_setA_pos_ne st p q v h]

theorem stripA_setA_pos (st : List (ℕ × Term)) (p : ℕ) (v : CQ) :
    stripA (setA_pos st p v) = stripA st := by
  apply List.ext_getElem
  · simp [stripA, length_setA_pos]
  · intro q h1 h2
    simp only [stripA, List.length_map] at h1 h2
    simp only [stripA, List.getElem_map]
    rw [length_setA_pos] at h1
    by_cases h : q = p
    · subst h
      have e1 := getD_setA_pos_self st q v h2
      rw [List.getD_eq_getElem _ _ (by simpa [length_setA_pos] using h2)] at e1
      rw [List.getD_eq_getElem _ _ h2] at e1
      rw [e1]
    · have e1 := getD_setA_pos_ne st p q v h
      rw [List.getD_eq_getElem _ _ (by simpa [length_setA_pos] using h2)] at e1
      rw [List.getD_eq_getElem _ _ h2] at e1
      rw [e1]

theorem stripA_length (st : List (ℕ × Term)) : (stripA st).length = st.length := by
  simp [stripA]

theorem stripA_keys (st : List (ℕ × Term)) : (stripA st).map (·.1) = st.map (·.1) := by
  simp [stripA, List.map_map, Function.comp]

theorem stripA_modes (st : List (ℕ × Term)) :
    (stripA st).map (·.2.mode) = st.map (·.2.mode) := by
  simp [stripA, List.map_map, Function.comp]

theorem stripA_eq_length {st st' : List (ℕ × Term)} (h : stripA st = stripA st') :
    st.length = st'.length := by
  have := congrArg List.length h
  simpa [stripA] using this

theorem stripA_eq_keys {st st' : List (ℕ × Term)} (h : stripA st = stripA st') :
    st.map (·.1) = st'.map (·.1) := by
  rw [← stripA_keys, h, stripA_keys]

theorem stripA_eq_modes {st st' : List (ℕ × Term)} (h : stripA st = stripA st') :
    st.map (·.2.mode) = st'.map (·.2.mode) := by
  rw [← stripA_modes, h, stripA_modes]

theorem term_update_eq {a b : Term}
    (h : ({ a with A := none } : Term) = { b with A := none }) (v : Option CQ) :
    ({ a with A := v } : Term) = { b with A := v } := by
  cases a
  cases b
  injection h with e1 e2 e3 e4 e5
  simp only at e1 e2 e4 e5
  subst e1
  subst e2
  subst e4
  subst e5
  rfl

theorem stripA_eq_unit_term {st stB : List (ℕ × Term)} (h : stripA st = stripA stB)
    (p : ℕ) : unit_term st p = unit_term stB p := by
  unfold unit_term
  have hlen := stripA_eq_length h
  by_cases hp : p < st.length
  · have hg : (stripA st).getD p (0, default) = (stripA stB).getD p (0, default) := by
      rw [h]
    simp only [stripA] at hg
    rw [List.getD_eq_getElem _ _ (by simpa using hp),
        List.getD_eq_getElem _ _ (by simp; omega)] at hg
    simp only [List.getElem_map] at hg
    rw [List.getD_eq_getElem _ _ hp, List.getD_eq_getElem _ _ (by omega)]
    have h2 := congrArg Prod.snd hg
    simp only at h2
    exact term_update_eq h2 (some 1)
  · rw [List.getD_eq_default _ _ (Nat.le_of_not_lt hp),
        List.getD_eq_default _ _ (by omega)]

end Ringdown

namespace Ringdown

/-! ## Group-position lemmas -/

theorem gpos_sublist_range (st : List (ℕ × Term)) (m : ℤ) :
    List.Sublist (gpos st m) (List.range st.length) := by
  unfold gpos group_m
  have h1 := (List.filter_sublist
    (l := (st.map (·.2)).enum)
    (p := fun p => p.2.mode.elim false (fun md => decide (md.2.1 = m))))
  have h2 := h1.map Prod.fst
  rw [List.enum_map_fst, List.length_map] at h2
  simpa using h2

theorem gpos_nodup (st : List (ℕ × Term)) (m : ℤ) : (gpos st m).Nodup :=
  (gpos_sublist_range st m).nodup (List.nodup_range st.length)

theorem gpos_mem_lt (st : List (ℕ × Term)) (m : ℤ) (p : ℕ) (h : p ∈ gpos st m) :
    p < st.length := by
  have := (gpos_sublist_range st m).subset h
  simpa using this

theorem mem_gpos_iff (st : List (ℕ × Term)) (m : ℤ) (p : ℕ) :
    p ∈ gpos st m ↔ p < st.length ∧
      ((st.getD p (0, default)).2).mode.elim false (fun md => decide (md.2.1 = m)) = true := by
  unfold gpos group_m
  constructor
  · intro hp
    obtain ⟨pair, hpair, hfst⟩ := List.mem_map.mp hp
    have hmem := (List.mem_filter.mp hpair).1
    have hpred := (List.mem_filter.mp hpair).2
    have hget := List.mem_enum_iff_getElem?.mp hmem
    obtain ⟨hlt, helem⟩ := List.getElem?_eq_some_iff.mp hget
    rw [List.length_map] at hlt
    subst hfst
    refine ⟨hlt, ?_⟩
    rw [List.getD_eq_getElem _ _ hlt]
    have hlt2 : pair.1 < (st.map (·.2)).length := by simpa using hlt
    have : (st.map (·.2))[pair.1] = st[pair.1].2 :=
      List.getElem_map _
    rw [this] at helem
    rw [← helem] at hpred
    exact hpred
  · intro ⟨hlt, hpred⟩
    refine List.mem_map.mpr ⟨(p, st[p].2), List.mem_filter.mpr ⟨?_, ?_⟩, rfl⟩
    · exact List.mem_enum_iff_getElem?.mpr (List.getElem?_eq_some_iff.mpr
        ⟨by simpa using hlt, List.getElem_map _⟩)
    · rw [List.getD_eq_getElem _ _ hlt] at hpred
      exact hpred

theorem gpos_repr (st : List (ℕ × Term)) (m : ℤ) :
    gpos st m = ((st.map (·.2.mode)).enum.filter
      (fun p => p.2.elim false (fun md => decide (md.2.1 = m)))).map Prod.fst := by
  unfold gpos group_m
  have hmm : st.map (·.2.mode) = (st.map (·.2)).map (fun term => term.mode) := by
    simp [List.map_map, Function.comp]
  conv_rhs => rw [hmm, List.enum_map, List.filter_map, List.map_map]
  rfl

theorem gpos_eq_of_modes {st st' : List (ℕ × Term)}
    (h : st.map (·.2.mode) = st'.map (·.2.mode)) (m : ℤ) :
    gpos st m = gpos st' m := by
  rw [gpos_repr, gpos_repr, h]

end Ringdown

namespace Ringdown

/-! ## Design-loop and write-back lemmas -/

theorem keys_at (st : List (ℕ × Term)) (hkeys : st.map (·.1) = List.range st.length)
    (q : ℕ) (h : q < st.length) : (st[q]).1 = q := by
  have hq1 : q < (st.map (·.1)).length := by simpa using h
  have hq2 : q < (List.range st.length).length := by simpa using h
  have h1 : (st.map (·.1))[q] = (List.range st.length)[q] := by
    congr 1
  simpa using h1

theorem dict_setA_key_range (st : List (ℕ × Term)) (k : ℕ) (v : CQ)
    (hkeys : st.map (·.1) = List.range st.length) (hk : k < st.length) :
    dict_setA_key st k v = .ok (setA_pos st k v) := by
  have hany : st.any (fun kv => decide (kv.1 = k)) = true := by
    refine List.any_eq_true.mpr ⟨st[k], List.getElem_mem hk, ?_⟩
    simp [keys_at st hkeys k hk]
  unfold dict_setA_key
  rw [hany]
  simp only [if_true]
  congr 1
  apply List.ext_getElem
  · simp [length_setA_pos]
  · intro q h1 h2
    simp only [List.length_map] at h1
    simp only [List.getElem_map]
    have hq1 : (st[q]).1 = q := keys_at st hkeys q h1
    unfold setA_pos
    by_cases hq : q = k
    · subst hq
      rw [List.getElem_set_self]
      rw [List.getD_eq_getElem st (0, default) hk]
      simp [hq1]
    · rw [List.getElem_set_ne (fun hh => hq hh.symm) _]
      simp [hq1, hq]

theorem design_fold_spec (oracle : Oracle) (cexp : CQ → CQ) (chi_f M_f : ℚ)
    (trunc : WM) (didx : List ℤ) (t_0 t_ref : ℚ)
    (ps : List ℕ) (st0 : List (ℕ × Term)) (cs0 : List (List CQ))
    (colD : ℕ → Data)
    (hok : ∀ p ∈ ps, qnm_modes_as oracle cexp (.scalar chi_f) (.scalar M_f)
        [(0, unit_term st0 p)] trunc none t_0 t_ref = .ok (colD p))
    (hlt : ∀ p ∈ ps, p < st0.length) :
    ps.foldlM (design_step oracle cexp chi_f M_f trunc didx t_0 t_ref) (st0, cs0) =
      .ok (ps.foldl (fun s p => setA_pos s p 1) st0,
           cs0 ++ ps.map (fun p => (selectCols (colD p) didx).flatten)) := by
  induction ps generalizing st0 cs0 with
  | nil =>
    rw [List.foldlM_nil, List.foldl_nil, List.map_nil, List.append_nil]
    rfl
  | cons p ps ih =>
    rw [List.foldlM_cons]
    have hp : p < st0.length := hlt p (List.mem_cons_self p ps)
    have htrm : ((setA_pos st0 p 1).getD p (0, default)).2 = unit_term st0 p := by
      rw [getD_setA_pos_self st0 p 1 hp]
      rfl
    have hstep : design_step oracle cexp chi_f M_f trunc didx t_0 t_ref (st0, cs0) p =
        .ok (setA_pos st0 p 1, cs0 ++ [(selectCols (colD p) didx).flatten]) := by
      unfold design_step
      simp only
      rw [htrm, hok p (List.mem_cons_self p ps)]
    rw [hstep, ebind_ok, List.foldl_cons]
    rw [ih (setA_pos st0 p 1) (cs0 ++ [(selectCols (colD p) didx).flatten])
      (fun q hq => by
        rw [unit_term_setA_pos]
        exact hok q (List.mem_cons_of_mem _ hq))
      (fun q hq => by
        rw [length_setA_pos]
        exact hlt q (List.mem_cons_of_mem _ hq))]
    simp

theorem stripA_foldl_setA {α : Type} (l : List α) (pos : α → ℕ) (val : α → CQ)
    (st : List (ℕ × Term)) :
    stripA (l.foldl (fun s a => setA_pos s (pos a) (val a)) st) = stripA st := by
  induction l generalizing st with
  | nil => rfl
  | cons a l ih => rw [List.foldl_cons, ih, stripA_setA_pos]

theorem foldl_setA_notmem {α : Type} (l : List α) (pos : α → ℕ) (val : α → CQ)
    (st : List (ℕ × Term)) (q : ℕ) (hq : ∀ a ∈ l, pos a ≠ q) :
    (l.foldl (fun s a => setA_pos s (pos a) (val a)) st).getD q (0, default) =
      st.getD q (0, default) := by
  induction l generalizing st with
  | nil => rfl
  | cons a l ih =>
    rw [List.foldl_cons, ih _ (fun b hb => hq b (List.mem_cons_of_mem _ hb)),
      getD_setA_pos_ne _ _ _ _ (fun hh => hq a (List.mem_cons_self a l) hh.symm)]

theorem writeback_fold_ok (x : List CQ) (ps : List ℕ) (k0 : ℕ)
    (st : List (ℕ × Term))
    (hkeys : st.map (·.1) = List.range st.length)
    (hlt : ∀ p ∈ ps, p < st.length) :
    (List.enumFrom k0 ps).foldlM
        (fun st2 ci => dict_setA_key st2 ci.2 (x.getD ci.1 0)) st =
      .ok ((List.enumFrom k0 ps).foldl
        (fun s ci => setA_pos s ci.2 (x.getD ci.1 0)) st) := by
  induction ps generalizing k0 st with
  | nil => rfl
  | cons p ps ih =>
    rw [show List.enumFrom k0 (p :: ps) = (k0, p) :: List.enumFrom (k0 + 1) ps from rfl,
      List.foldlM_cons, List.foldl_cons]
    rw [dict_setA_key_range st p _ hkeys (hlt p (List.mem_cons_self p ps)), ebind_ok]
    have hstrip := stripA_setA_pos st p (x.getD k0 0)
    refine ih (k0 + 1) (setA_pos st p _) ?_ ?_
    · rw [stripA_eq_keys hstrip, length_setA_pos]
      exact hkeys
    · intro q hq
      rw [length_setA_pos]
      exact hlt q (List.mem_cons_of_mem _ hq)

theorem snd_mem_of_mem_enumFrom {α : Type} (ps : List α) (k0 : ℕ) (ci : ℕ × α)
    (h : ci ∈ List.enumFrom k0 ps) : ci.2 ∈ ps := by
  induction ps generalizing k0 with
  | nil => simp at h
  | cons a l ih =>
    rw [show List.enumFrom k0 (a :: l) = (k0, a) :: List.enumFrom (k0 + 1) l from rfl] at h
    rcases List.mem_cons.mp h with h | h
    · rw [h]
      exact List.mem_cons_self a l
    · exact List.mem_cons_of_mem _ (ih (k0 + 1) h)

theorem enumFrom_foldl_setA_getD (x : List CQ) (ps : List ℕ) (k0 : ℕ)
    (st : List (ℕ × Term)) (hnd : ps.Nodup) (hlt : ∀ p ∈ ps, p < st.length) :
    ∀ k (hk : k < ps.length),
      (((List.enumFrom k0 ps).foldl
          (fun s ci => setA_pos s ci.2 (x.getD ci.1 0)) st).getD
        (ps[k]) (0, default)).2.A = some (x.getD (k0 + k) 0) := by
  induction ps generalizing k0 st with
  | nil => intro k hk; simp at hk
  | cons p ps ih =>
    intro k hk
    rw [show List.enumFrom k0 (p :: ps) = (k0, p) :: List.enumFrom (k0 + 1) ps from rfl,
      List.foldl_cons]
    have hp : p < st.length := hlt p (List.mem_cons_self p ps)
    cases k with
    | zero =>
      have hnotin : p ∉ ps := (List.nodup_cons.mp hnd).1
      have hnot : ∀ ci ∈ List.enumFrom (k0 + 1) ps, ci.2 ≠ p := fun ci hci heq =>
        hnotin (heq ▸ snd_mem_of_mem_enumFrom ps (k0 + 1) ci hci)
      simp only [List.getElem_cons_zero]
      rw [foldl_setA_notmem (List.enumFrom (k0 + 1) ps) (fun ci => ci.2)
        (fun ci => x.getD ci.1 0) _ p hnot]
      rw [getD_setA_pos_self st p _ hp]
      simp
    | succ k' =>
      simp only [List.getElem_cons_succ]
      have hres := ih (k0 + 1) (setA_pos st p (x.getD k0 0))
        (List.nodup_cons.mp hnd).2
        (fun q hq => by
          rw [length_setA_pos]
          exact hlt q (List.mem_cons_of_mem _ hq)) k' (by simpa using hk)
      rw [hres, show k0 + 1 + k' = k0 + (k' + 1) by omega]

end Ringdown

namespace Ringdown

/-! ## fit_group characterization -/

theorem fit_group_spec (oracle : Oracle) (cexp : CQ → CQ)
    (lstsq : List (List CQ) → List CQ → List CQ) (h_ring : WM)
    (modes : Option (List (ℕ × ℤ))) (times : ℚ × ℚ) (chi_f M_f t_ref : ℚ)
    (st : List (ℕ × Term)) (m : ℤ) (emn emx : ℕ) (colD : ℕ → Data)
    (hkeys : st.map (·.1) = List.range st.length)
    (hb : ell_bounds_m h_ring.ell_min h_ring.ell_max modes m = .ok (emn, emx))
    (hw : (data_index_m h_ring.ell_min h_ring.ell_max modes m).length = emx + 1 - emn)
    (hok : ∀ p ∈ gpos st m, qnm_modes_as oracle cexp (.scalar chi_f) (.scalar M_f)
        [(0, unit_term st p)] (truncEll h_ring emx) none times.1 t_ref = .ok (colD p)) :
    fit_group oracle cexp lstsq h_ring modes times chi_f M_f t_ref st m =
      .ok ((List.enumFrom 0 (gpos st m)).foldl
        (fun s ci => setA_pos s ci.2
          ((lstsq ((gpos st m).map (fun p =>
              (selectCols (colD p)
                (data_index_m h_ring.ell_min h_ring.ell_max modes m)).flatten))
            ((selectCols (truncEll h_ring emx).data
              (data_index_m h_ring.ell_min h_ring.ell_max modes m)).flatten)).getD ci.1 0))
        ((gpos st m).foldl (fun s p => setA_pos s p 1) st)) := by
  have hlts : ∀ p ∈ gpos st m, p < st.length := gpos_mem_lt st m
  have hgp : (group_m st m).map (·.1) = gpos st m := rfl
  simp only [fit_group, hb]
  rw [if_neg (fun hne => hne hw)]
  rw [hgp, design_fold_spec oracle cexp chi_f M_f (truncEll h_ring emx)
    (data_index_m h_ring.ell_min h_ring.ell_max modes m) times.1 t_ref
    (gpos st m) st [] colD hok hlts]
  simp only [List.nil_append]
  have hst1 := stripA_foldl_setA (gpos st m) (fun p => p) (fun _ => 1) st
  rw [show (gpos st m).enum = List.enumFrom 0 (gpos st m) from rfl]
  rw [writeback_fold_ok _ (gpos st m) 0 _
    (by rw [stripA_eq_keys hst1, stripA_eq_length hst1]; exact hkeys)
    (fun q hq => by rw [stripA_eq_length hst1]; exact hlts q hq)]

theorem fit_group_final (oracle : Oracle) (cexp : CQ → CQ)
    (lstsq : List (List CQ) → List CQ → List CQ) (h_ring : WM)
    (modes : Option (List (ℕ × ℤ))) (times : ℚ × ℚ) (chi_f M_f t_ref : ℚ)
    (st : List (ℕ × Term)) (m : ℤ) (emn emx : ℕ) (colD : ℕ → Data)
    (hkeys : st.map (·.1) = List.range st.length)
    (hb : ell_bounds_m h_ring.ell_min h_ring.ell_max modes m = .ok (emn, emx))
    (hw : (data_index_m h_ring.ell_min h_ring.ell_max modes m).length = emx + 1 - emn)
    (hok : ∀ p ∈ gpos st m, qnm_modes_as oracle cexp (.scalar chi_f) (.scalar M_f)
        [(0, unit_term st p)] (truncEll h_ring emx) none times.1 t_ref = .ok (colD p)) :
    ∃ st', fit_group oracle cexp lstsq h_ring modes times chi_f M_f t_ref st m = .ok st' ∧
      stripA st' = stripA st ∧
      (∀ q, q ∉ gpos st m → st'.getD q (0, default) = st.getD q (0, default)) ∧
      ∀ k, ∀ hk : k < (gpos st m).length,
        (st'.getD ((gpos st m)[k]) (0, default)).2.A =
          some ((lstsq ((gpos st m).map (fun p =>
              (selectCols (colD p)
                (data_index_m h_ring.ell_min h_ring.ell_max modes m)).flatten))
            ((selectCols (truncEll h_ring emx).data
              (data_index_m h_ring.ell_min h_ring.ell_max modes m)).flatten)).getD k 0) := by
  have hlts : ∀ p ∈ gpos st m, p < st.length := gpos_mem_lt st m
  have hst1 := stripA_foldl_setA (gpos st m) (fun p => p) (fun _ => 1) st
  refine ⟨_, fit_group_spec oracle cexp lstsq h_ring modes times chi_f M_f t_ref st m
    emn emx colD hkeys hb hw hok, ?_, ?_, ?_⟩
  · rw [stripA_foldl_setA, hst1]
  · intro q hq
    rw [foldl_setA_notmem _ (fun ci => ci.2) _ _ q
        (fun ci hci heq => hq (heq ▸ snd_mem_of_mem_enumFrom _ _ ci hci)),
      foldl_setA_notmem _ (fun p => p) _ _ q (fun p hp heq => hq (heq ▸ hp))]
  · intro k hk
    have := enumFrom_foldl_setA_getD
      ((lstsq ((gpos st m).map (fun p =>
          (selectCols (colD p)
            (data_index_m h_ring.ell_min h_ring.ell_max modes m)).flatten))
        ((selectCols (truncEll h_ring emx).data
          (data_index_m h_ring.ell_min h_ring.ell_max modes m)).flatten)))
      (gpos st m) 0 ((gpos st m).foldl (fun s p => setA_pos s p 1) st)
      (gpos_nodup st m)
      (fun q hq => by rw [stripA_eq_length hst1]; exact hlts q hq) k hk
    simpa using this

end Ringdown

namespace Ringdown

/-! ## C3 — amplitude write-back -/

/-- C3 (amended): the write-back `fixed_QNMs[i]["A"] = C[0][count]` looks the
dictionary up BY KEY using the positional index `i` of the term in
`values()` order.  When the keys are exactly `0 .. n-1` in insertion order
(as in every use in the repository), this assigns the k-th solved amplitude
(`(lstsq cols obs).getD k 0`) to the values-position `(gpos st m)[k]` of the
k-th m-group member — the same term whose unit-amplitude waveform produced
the k-th design-matrix column (`cols` is the list of those columns in group
order).  For other key sets the write-back misassigns amplitudes or raises
KeyError, so the fit result DOES depend on the choice of dictionary keys
(see `C3_counterexample`). -/
theorem C3_amended_writeback (oracle : Oracle) (cexp : CQ → CQ)
    (lstsq : List (List CQ) → List CQ → List CQ) (h_ring : WM)
    (modes : Option (List (ℕ × ℤ))) (times : ℚ × ℚ) (chi_f M_f t_ref : ℚ)
    (st : List (ℕ × Term)) (m : ℤ) (emn emx : ℕ) (colD : ℕ → Data)
    (hkeys : st.map (·.1) = List.range st.length)
    (hb : ell_bounds_m h_ring.ell_min h_ring.ell_max modes m = .ok (emn, emx))
    (hw : (data_index_m h_ring.ell_min h_ring.ell_max modes m).length = emx + 1 - emn)
    (hok : ∀ p ∈ gpos st m, qnm_modes_as oracle cexp (.scalar chi_f) (.scalar M_f)
        [(0, unit_term st p)] (truncEll h_ring emx) none times.1 t_ref = .ok (colD p)) :
    ∃ st', fit_group oracle cexp lstsq h_ring modes times chi_f M_f t_ref st m = .ok st' ∧
      ∀ k, ∀ hk : k < (gpos st m).length,
        (st'.getD ((gpos st m)[k]) (0, default)).2.A =
          some ((lstsq ((gpos st m).map (fun p =>
              (selectCols (colD p)
                (data_index_m h_ring.ell_min h_ring.ell_max modes m)).flatten))
            ((selectCols (truncEll h_ring emx).data
              (data_index_m h_ring.ell_min h_ring.ell_max modes m)).flatten)).getD k 0) := by
  obtain ⟨st', hrun, _, _, hval⟩ := fit_group_final oracle cexp lstsq h_ring modes times
    chi_f M_f t_ref st m emn emx colD hkeys hb hw hok
  exact ⟨st', hrun, hval⟩

/-- Witness for C3 (amended) on a one-term dictionary with key 0. -/
theorem C3_amended_writeback_witness :
    ∃ st', fit_group oracleL2 cexpOne (fun _ _ => [⟨4, 0⟩]) ⟨[0, 1], 2, 2, zeroData 2 5⟩
        none (0, 1) (7/10) 1 0 [(0, qnmT (2, 2, 0, 1) none)] 2 = .ok st' ∧
      (st'.getD 0 (0, default)).2.A = some ⟨4, 0⟩ := by
  obtain ⟨st', hrun, hval⟩ := C3_amended_writeback oracleL2 cexpOne
    (fun _ _ => [⟨4, 0⟩]) ⟨[0, 1], 2, 2, zeroData 2 5⟩ none (0, 1) (7/10) 1 0
    [(0, qnmT (2, 2, 0, 1) none)] 2 2 2
    (fun _ => [[0, 0, 0, 0, 1], [0, 0, 0, 0, 1]])
    (by with_unfolding_all rfl) (by with_unfolding_all rfl) (by with_unfolding_all rfl)
    (by with_unfolding_all decide)
  refine ⟨st', hrun, ?_⟩
  have h0 : (0 : ℕ) < (gpos [(0, qnmT (2, 2, 0, 1) none)] 2).length := by
    with_unfolding_all decide
  have := hval 0 h0
  rw [show (gpos [(0, qnmT (2, 2, 0, 1) none)] 2)[0] = 0 by with_unfolding_all rfl]
    at this
  exact this

end Ringdown

namespace Ringdown

/-! ## The m-loop of the fitter -/

theorem gpos_disjoint (st : List (ℕ × Term)) (m m' : ℤ) (p : ℕ)
    (h1 : p ∈ gpos st m) (h2 : p ∈ gpos st m') : m = m' := by
  obtain ⟨hl1, hp1⟩ := (mem_gpos_iff st m p).mp h1
  obtain ⟨hl2, hp2⟩ := (mem_gpos_iff st m' p).mp h2
  cases hmd : ((st.getD p (0, default)).2).mode with
  | none => rw [hmd] at hp1; simp [Option.elim] at hp1
  | some md =>
    rw [hmd] at hp1 hp2
    simp only [Option.elim] at hp1 hp2
    have e1 := of_decide_eq_true hp1
    have e2 := of_decide_eq_true hp2
    rw [← e1, ← e2]

theorem m_step_some (acc : List ℤ) (kv : ℕ × Term) (md : ℕ × ℤ × ℕ × ℤ)
    (hmd : kv.2.mode = some md) :
    m_step acc kv = .ok (if md.2.1 ∈ acc then acc else acc ++ [md.2.1]) := by
  unfold m_step
  rw [hmd]

theorem fit_m_list_fold (fixed : List (ℕ × Term)) (acc res : List ℤ)
    (h : fixed.foldlM m_step acc = .ok res) :
    (∀ x ∈ acc, x ∈ res) ∧
    (∀ kv ∈ fixed, ∃ md, kv.2.mode = some md ∧ md.2.1 ∈ res) := by
  induction fixed generalizing acc with
  | nil =>
    rw [List.foldlM_nil] at h
    have : acc = res := Except.ok.inj h
    subst this
    exact ⟨fun x hx => hx, fun kv hkv => absurd hkv (by simp)⟩
  | cons kv fixed ih =>
    rw [List.foldlM_cons] at h
    cases hmd : kv.2.mode with
    | none =>
      rw [show m_step acc kv = .error (.keyErr "mode") by unfold m_step; rw [hmd]] at h
      exact absurd h (by simp [ebind_err])
    | some md =>
      rw [m_step_some acc kv md hmd, ebind_ok] at h
      obtain ⟨hsub, hall⟩ := ih _ h
      have hmem : md.2.1 ∈ res := by
        refine hsub _ ?_
        by_cases hc : md.2.1 ∈ acc <;> simp [hc]
      refine ⟨fun x hx => hsub x (by by_cases hc : md.2.1 ∈ acc <;> simp [hc, hx]), ?_⟩
      intro kv' hkv'
      rcases List.mem_cons.mp hkv' with hkv' | hkv'
      · exact ⟨md, by rw [hkv']; exact hmd, hmem⟩
      · exact hall kv' hkv'

end Ringdown

namespace Ringdown

theorem fit_groups_fold_spec (oracle : Oracle) (cexp : CQ → CQ)
    (lstsq : List (List CQ) → List CQ → List CQ) (h_ring : WM)
    (modes : Option (List (ℕ × ℤ))) (times : ℚ × ℚ) (chi_f M_f t_ref : ℚ)
    (st0 : List (ℕ × Term)) (bnds : ℤ → ℕ × ℕ) (colD : ℤ → ℕ → Data)
    (mlist : List ℤ)
    (hkeys : st0.map (·.1) = List.range st0.length)
    (hb : ∀ m ∈ mlist, ell_bounds_m h_ring.ell_min h_ring.ell_max modes m = .ok (bnds m))
    (hw : ∀ m ∈ mlist, (data_index_m h_ring.ell_min h_ring.ell_max modes m).length =
        (bnds m).2 + 1 - (bnds m).1)
    (hok : ∀ m ∈ mlist, ∀ p ∈ gpos st0 m,
        qnm_modes_as oracle cexp (.scalar chi_f) (.scalar M_f)
          [(0, unit_term st0 p)] (truncEll h_ring (bnds m).2) none times.1 t_ref =
          .ok (colD m p))
    (st : List (ℕ × Term)) (hstrip : stripA st = stripA st0) :
    ∃ stF, mlist.foldlM
        (fit_group oracle cexp lstsq h_ring modes times chi_f M_f t_ref) st = .ok stF ∧
      stripA stF = stripA st0 ∧
      (∀ q, (∀ m ∈ mlist, q ∉ gpos st0 m) →
        stF.getD q (0, default) = st.getD q (0, default)) ∧
      (∀ m, ∀ hm : m ∈ mlist, ∀ k, ∀ hk : k < (gpos st0 m).length,
        (stF.getD ((gpos st0 m)[k]) (0, default)).2.A =
          some ((lstsq ((gpos st0 m).map (fun p =>
              (selectCols (colD m p)
                (data_index_m h_ring.ell_min h_ring.ell_max modes m)).flatten))
            ((selectCols (truncEll h_ring (bnds m).2).data
              (data_index_m h_ring.ell_min h_ring.ell_max modes m)).flatten)).getD k 0)) := by
  induction mlist generalizing st with
  | nil =>
    exact ⟨st, by rw [List.foldlM_nil]; rfl, hstrip, fun q _ => rfl,
      fun m hm => absurd hm (by simp)⟩
  | cons m ms ih =>
    have hgpos_st : gpos st m = gpos st0 m := gpos_eq_of_modes (stripA_eq_modes hstrip) m
    have hkeys_st : st.map (·.1) = List.range st.length := by
      rw [stripA_eq_keys hstrip, stripA_eq_length hstrip]
      exact hkeys
    have hok_st : ∀ p ∈ gpos st m,
        qnm_modes_as oracle cexp (.scalar chi_f) (.scalar M_f)
          [(0, unit_term st p)] (truncEll h_ring (bnds m).2) none times.1 t_ref =
          .ok (colD m p) := by
      intro p hp
      rw [stripA_eq_unit_term hstrip]
      exact hok m (List.mem_cons_self m ms) p (hgpos_st ▸ hp)
    obtain ⟨st1, hrun1, hstrip1, hunt1, hval1⟩ := fit_group_final oracle cexp lstsq
      h_ring modes times chi_f M_f t_ref st m (bnds m).1 (bnds m).2 (colD m)
      hkeys_st (by rw [hb m (List.mem_cons_self m ms)]) (hw m (List.mem_cons_self m ms))
      hok_st
    obtain ⟨stF, hrunF, hstripF, huntF, hvalF⟩ := ih
      (fun m' hm' => hb m' (List.mem_cons_of_mem _ hm'))
      (fun m' hm' => hw m' (List.mem_cons_of_mem _ hm'))
      (fun m' hm' => hok m' (List.mem_cons_of_mem _ hm'))
      st1 (hstrip1.trans hstrip)
    refine ⟨stF, ?_, hstripF, ?_, ?_⟩
    · rw [List.foldlM_cons, hrun1, ebind_ok, hrunF]
    · intro q hq
      rw [huntF q (fun m' hm' => hq m' (List.mem_cons_of_mem _ hm')),
        hunt1 q (by rw [hgpos_st]; exact hq m (List.mem_cons_self m ms))]
    · intro m' hm' k hk
      rcases List.mem_cons.mp hm' with hm' | hm'
      · subst hm'
        by_cases hmm : m' ∈ ms
        · exact hvalF m' hmm k hk
        · have hp_mem : (gpos st0 m')[k] ∈ gpos st0 m' := List.getElem_mem hk
          have hnot : ∀ m'' ∈ ms, (gpos st0 m')[k] ∉ gpos st0 m'' := by
            intro m'' hm'' hin
            exact hmm (gpos_disjoint st0 m' m'' _ hp_mem hin ▸ hm'')
          rw [huntF _ hnot]
          have hres := hval1 k (by rw [hgpos_st]; exact hk)
          simp only [hgpos_st] at hres
          exact hres
      · exact hvalF m' hm' k hk

end Ringdown

namespace Ringdown

/-! ## C2 — the fitter mutates its input dictionary -/

/-- C2 (amended): the fitter does NOT attach amplitudes to a copy — it
mutates the caller's `fixed_QNMs` dictionary in place (`term["A"] = 1`
during the design loop, then `fixed_QNMs[i]["A"] = C[0][count]` during
write-back) and, on success, returns that same mutated dictionary.  What is
preserved: only the amplitude fields change (the dictionary with `A` keys
stripped is unchanged), and after the m-loop every term of the (mutated)
input dictionary carries an amplitude. -/
theorem C2_amended_fit_mutates_input (oracle : Oracle) (cexp : CQ → CQ)
    (lstsq : List (List CQ) → List CQ → List CQ) (h_ring : WM)
    (modes : Option (List (ℕ × ℤ))) (times : ℚ × ℚ) (chi_f M_f t_ref : ℚ)
    (fixed : List (ℕ × Term)) (mlist : List ℤ)
    (bnds : ℤ → ℕ × ℕ) (colD : ℤ → ℕ → Data)
    (hml : fit_m_list fixed = .ok mlist)
    (hkeys : fixed.map (·.1) = List.range fixed.length)
    (hb : ∀ m ∈ mlist, ell_bounds_m h_ring.ell_min h_ring.ell_max modes m = .ok (bnds m))
    (hw : ∀ m ∈ mlist, (data_index_m h_ring.ell_min h_ring.ell_max modes m).length =
        (bnds m).2 + 1 - (bnds m).1)
    (hok : ∀ m ∈ mlist, ∀ p ∈ gpos fixed m,
        qnm_modes_as oracle cexp (.scalar chi_f) (.scalar M_f)
          [(0, unit_term fixed p)] (truncEll h_ring (bnds m).2) none times.1 t_ref =
          .ok (colD m p)) :
    ∃ stF, mlist.foldlM
        (fit_group oracle cexp lstsq h_ring modes times chi_f M_f t_ref) fixed = .ok stF ∧
      stripA stF = stripA fixed ∧
      (∀ p, ∀ hp : p < stF.length, (stF[p]).2.A.isSome) ∧
      (∀ d e final, fit_rd oracle cexp lstsq h_ring modes times chi_f M_f fixed t_ref =
        .ok (d, e, final) → final = stF) := by
  obtain ⟨stF, hfold, hstrip, hunt, hval⟩ := fit_groups_fold_spec oracle cexp lstsq
    h_ring modes times chi_f M_f t_ref fixed bnds colD mlist hkeys hb hw hok fixed rfl
  have hlen : stF.length = fixed.length := stripA_eq_length hstrip
  refine ⟨stF, hfold, hstrip, ?_, ?_⟩
  · intro p hp
    have hpf : p < fixed.length := by omega
    obtain ⟨md, hmd, hmem⟩ := (fit_m_list_fold fixed [] mlist hml).2 fixed[p]
      (List.getElem_mem hpf)
    have hgp : p ∈ gpos fixed md.2.1 := by
      refine (mem_gpos_iff fixed md.2.1 p).mpr ⟨hpf, ?_⟩
      rw [List.getD_eq_getElem _ _ hpf, hmd]
      simp [Option.elim]
    obtain ⟨k, hk, hpk⟩ := List.mem_iff_getElem.mp hgp
    have := hval md.2.1 hmem k hk
    rw [hpk] at this
    rw [List.getD_eq_getElem _ _ hp] at this
    rw [this]
    rfl
  · intro d e final h
    simp only [fit_rd, hml, hfold] at h
    cases hsyn : qnm_modes_as oracle cexp (.scalar chi_f) (.scalar M_f) stF h_ring none
        times.1 t_ref with
    | error err => rw [hsyn] at h; exact absurd h (by simp)
    | ok hq =>
      rw [hsyn] at h
      simp only [Except.ok.injEq, Prod.mk.injEq] at h
      exact h.2.2.symm

end Ringdown

namespace Ringdown

/-- Witness for C2 (amended) on a concrete one-term dictionary. -/
theorem C2_amended_fit_mutates_input_witness :
    ∃ stF, ([(2 : ℤ)]).foldlM
        (fit_group oracleL2 cexpOne (fun _ _ => [⟨4, 0⟩]) ⟨[0, 1], 2, 2, zeroData 2 5⟩
          none (0, 1) (7/10) 1 0) [(0, qnmT (2, 2, 0, 1) none)] = .ok stF ∧
      stripA stF = stripA [(0, qnmT (2, 2, 0, 1) none)] ∧
      ∀ p, ∀ hp : p < stF.length, (stF[p]).2.A.isSome := by
  obtain ⟨stF, hfold, hstrip, hsome, _⟩ := C2_amended_fit_mutates_input oracleL2 cexpOne
    (fun _ _ => [⟨4, 0⟩]) ⟨[0, 1], 2, 2, zeroData 2 5⟩ none (0, 1) (7/10) 1 0
    [(0, qnmT (2, 2, 0, 1) none)] [2] (fun _ => (2, 2))
    (fun _ _ => [[0, 0, 0, 0, 1], [0, 0, 0, 0, 1]])
    (by with_unfolding_all rfl) (by with_unfolding_all rfl)
    (by with_unfolding_all decide) (by with_unfolding_all decide)
    (by with_unfolding_all decide)
  exact ⟨stF, hfold, hstrip, hsome⟩

end Ringdown

namespace Ringdown

/-! ## Entry-level lemmas for the synthesizer -/

theorem length_addColData (d : Data) (j : ℤ) (v : ℕ → CQ) :
    (addColData d j v).length = d.length := by
  simp [addColData]

theorem row_addColData (d : Data) (j : ℤ) (v : ℕ → CQ) (r : ℕ) (hr : r < d.length) :
    (addColData d j v).getD r [] =
      (let row := d.getD r []
       let c := wrapIx row.length j
       row.set c (row.getD c 0 + v r)) := by
  unfold addColData
  rw [List.getD_eq_getElem _ _ (by simpa using hr), List.getElem_mapIdx,
    List.getD_eq_getElem _ _ hr]

theorem row_addColData_out (d : Data) (j : ℤ) (v : ℕ → CQ) (r : ℕ)
    (hr : ¬ r < d.length) :
    (addColData d j v).getD r [] = d.getD r [] := by
  unfold addColData
  rw [List.getD_eq_default _ _ (by simpa using Nat.le_of_not_lt hr),
    List.getD_eq_default _ _ (Nat.le_of_not_lt hr)]

theorem rowlen_addColData (d : Data) (j : ℤ) (v : ℕ → CQ) (r : ℕ) :
    ((addColData d j v).getD r []).length = (d.getD r []).length := by
  by_cases hr : r < d.length
  · rw [row_addColData d j v r hr]
    simp
  · rw [row_addColData_out d j v r hr]

theorem getD_set_eq' (row : List CQ) (c : ℕ) (x : CQ) (hc : c < row.length) :
    (row.set c x).getD c 0 = x := by
  rw [List.getD_eq_getElem _ _ (by simpa using hc), List.getElem_set_self]

theorem getD_set_ne' (row : List CQ) (c c' : ℕ) (x : CQ) (hne : c' ≠ c) :
    (row.set c x).getD c' 0 = row.getD c' 0 := by
  by_cases hc : c' < row.length
  · rw [List.getD_eq_getElem _ _ (by simpa using hc), List.getD_eq_getElem _ _ hc]
    exact List.getElem_set_ne (fun hh => hne hh.symm) _
  · rw [List.getD_eq_default _ _ (by simpa using Nat.le_of_not_lt hc),
      List.getD_eq_default _ _ (Nat.le_of_not_lt hc)]

theorem entry_addColData_eq (d : Data) (j : ℤ) (v : ℕ → CQ) (r : ℕ)
    (hr : r < d.length) (hc : wrapIx ((d.getD r []).length) j < (d.getD r []).length) :
    entry (addColData d j v) r (wrapIx ((d.getD r []).length) j) =
      entry d r (wrapIx ((d.getD r []).length) j) + v r := by
  unfold entry
  rw [row_addColData d j v r hr]
  exact getD_set_eq' _ _ _ hc

theorem entry_addColData_ne (d : Data) (j : ℤ) (v : ℕ → CQ) (r c : ℕ)
    (hc : c ≠ wrapIx ((d.getD r []).length) j) :
    entry (addColData d j v) r c = entry d r c := by
  unfold entry
  by_cases hr : r < d.length
  · rw [row_addColData d j v r hr]
    exact getD_set_ne' _ _ _ _ hc
  · rw [row_addColData_out d j v r hr]

theorem getD_replicate_zero (N c : ℕ) : (List.replicate N (0 : CQ)).getD c 0 = 0 := by
  by_cases hc : c < N
  · rw [List.getD_eq_getElem (List.replicate N (0 : CQ)) 0 (by simpa using hc)]
    simp
  · rw [List.getD_eq_default (List.replicate N (0 : CQ)) 0 (by simpa using Nat.le_of_not_lt hc)]

theorem entry_zeroData (T N r c : ℕ) : entry (zeroData T N) r c = 0 := by
  unfold entry zeroData
  by_cases hr : r < T
  · rw [List.getD_eq_getElem (List.replicate T (List.replicate N (0 : CQ))) []
      (by simpa using hr)]
    simp only [List.getElem_replicate]
    exact getD_replicate_zero N c
  · rw [List.getD_eq_default (List.replicate T (List.replicate N (0 : CQ))) []
      (by simpa using Nat.le_of_not_lt hr)]
    simp [List.getD]

end Ringdown

namespace Ringdown

/-! ## Vector and shape arithmetic for the linearity of the synthesizer -/

theorem length_vecAdd (u v : List CQ) : (vecAdd u v).length = min u.length v.length := by
  simp [vecAdd]

theorem length_smulVec (a : CQ) (v : List CQ) : (smulVec a v).length = v.length := by
  simp [smulVec]

theorem vecAdd_assoc (u v w : List CQ) :
    vecAdd (vecAdd u v) w = vecAdd u (vecAdd v w) := by
  unfold vecAdd
  induction u generalizing v w with
  | nil => simp
  | cons x u ih =>
    cases v with
    | nil => simp
    | cons y v =>
      cases w with
      | nil => simp
      | cons z w =>
        simp only [List.zipWith_cons_cons]
        rw [ih, add_assoc]

theorem vecAdd_replicate_zero_right (v : List CQ) (L : ℕ) (h : v.length = L) :
    vecAdd v (List.replicate L 0) = v := by
  induction v generalizing L with
  | nil => simp [vecAdd]
  | cons x v ih =>
    subst h
    simp only [List.length_cons, List.replicate_succ, vecAdd, List.zipWith_cons_cons,
      add_zero]
    exact congrArg _ (ih _ rfl)

theorem vecAdd_replicate_zero_left (v : List CQ) (L : ℕ) (h : v.length = L) :
    vecAdd (List.replicate L 0) v = v := by
  induction v generalizing L with
  | nil => simp [vecAdd]
  | cons x v ih =>
    subst h
    simp only [List.length_cons, List.replicate_succ, vecAdd, List.zipWith_cons_cons,
      zero_add]
    exact congrArg _ (ih _ rfl)

theorem smulVec_replicate_zero (a : CQ) (n : ℕ) :
    smulVec a (List.replicate n 0) = List.replicate n 0 := by
  simp [smulVec, List.map_replicate]

theorem foldl_vecAdd_eq_foldr {α : Type} (g : α → List CQ) (N : ℕ) (l : List α)
    (b : List CQ) (hb : b.length = N) (hg : ∀ x ∈ l, (g x).length = N) :
    l.foldl (fun acc x => vecAdd acc (g x)) b =
      vecAdd b (l.foldr (fun x acc => vecAdd (g x) acc) (List.replicate N 0)) := by
  induction l generalizing b with
  | nil =>
    simp only [List.foldl_nil, List.foldr_nil]
    rw [vecAdd_replicate_zero_right b N hb]
  | cons x l ih =>
    simp only [List.foldl_cons, List.foldr_cons]
    rw [ih (vecAdd b (g x))
      (by rw [length_vecAdd, hb, hg x (List.mem_cons_self x l)]; simp)
      (fun y hy => hg y (List.mem_cons_of_mem _ hy)),
      vecAdd_assoc]

theorem shaped_zeroData (T L : ℕ) : shaped T L (zeroData T L) := by
  refine ⟨by simp [zeroData], fun row hrow => ?_⟩
  rw [List.eq_of_mem_replicate hrow]
  simp

theorem shaped_addColData {T L : ℕ} {d : Data} (hd : shaped T L d) (j : ℤ)
    (v : ℕ → CQ) : shaped T L (addColData d j v) := by
  refine ⟨by rw [length_addColData, hd.1], fun row hrow => ?_⟩
  obtain ⟨r, hr, hrow⟩ := List.mem_iff_getElem.mp hrow
  have hr2 : r < d.length := by rw [length_addColData] at hr; exact hr
  rw [← hrow]
  rw [show (addColData d j v)[r] =
    (fun r row => (fun c => row.set c (row.getD c 0 + v r)) (wrapIx row.length j)) r
      (d[r]) from List.getElem_mapIdx ..]
  simp only [List.length_set]
  exact hd.2 _ (List.getElem_mem hr2)

theorem shaped_dataAdd {T L : ℕ} {d e : Data} (hd : shaped T L d)
    (he : shaped T L e) : shaped T L (dataAdd d e) := by
  refine ⟨by simp [dataAdd, hd.1, he.1], fun row hrow => ?_⟩
  obtain ⟨r, hr, hrow⟩ := List.mem_iff_getElem.mp hrow
  have hrT : r < T := by
    simp only [dataAdd, List.length_zipWith, hd.1, he.1, min_self] at hr
    exact hr
  have hrd : r < d.length := by rw [hd.1]; exact hrT
  have hre : r < e.length := by rw [he.1]; exact hrT
  rw [← hrow]
  rw [show (dataAdd d e)[r] =
    List.zipWith (· + ·) (d[r]) (e[r])
    from List.getElem_zipWith ..]
  rw [List.length_zipWith, hd.2 _ (List.getElem_mem _), he.2 _ (List.getElem_mem _),
    min_self]

theorem shaped_smulData {T L : ℕ} {d : Data} (hd : shaped T L d) (a : CQ) :
    shaped T L (smulData a d) := by
  refine ⟨by simp [smulData, hd.1], fun row hrow => ?_⟩
  obtain ⟨row0, hrow0, hrow⟩ := List.mem_map.mp hrow
  rw [← hrow, List.length_map]
  exact hd.2 _ hrow0

theorem getD_map_mul (a : CQ) (ρ : List CQ) (c : ℕ) :
    (ρ.map (a * ·)).getD c 0 = a * ρ.getD c 0 := by
  by_cases hc : c < ρ.length
  · rw [List.getD_eq_getElem (ρ.map (a * ·)) 0 (by simpa using hc),
      List.getD_eq_getElem ρ 0 hc, List.getElem_map]
  · rw [List.getD_eq_default (ρ.map (a * ·)) 0 (by simpa using Nat.le_of_not_lt hc),
      List.getD_eq_default ρ 0 (Nat.le_of_not_lt hc), mul_zero]

theorem getD_zipWith_add (ρ1 ρ2 : List CQ) (c : ℕ) (h : ρ1.length = ρ2.length) :
    (List.zipWith (· + ·) ρ1 ρ2).getD c 0 = ρ1.getD c 0 + ρ2.getD c 0 := by
  by_cases hc : c < ρ1.length
  · rw [List.getD_eq_getElem (List.zipWith (· + ·) ρ1 ρ2) 0 (by simp [h.symm ▸ hc]; omega),
      List.getD_eq_getElem ρ1 0 hc, List.getD_eq_getElem ρ2 0 (h ▸ hc),
      List.getElem_zipWith]
  · rw [List.getD_eq_default (List.zipWith (· + ·) ρ1 ρ2) 0
        (by simp; omega),
      List.getD_eq_default ρ1 0 (Nat.le_of_not_lt hc),
      List.getD_eq_default ρ2 0 (by omega), add_zero]

end Ringdown

namespace Ringdown

/-! ## Column updates commute with scaling and pointwise addition -/

theorem set_map_mul (a : CQ) (ρ : List CQ) (c : ℕ) (x : CQ) :
    (ρ.map (a * ·)).set c ((ρ.map (a * ·)).getD c 0 + a * x) =
      (ρ.set c (ρ.getD c 0 + x)).map (a * ·) := by
  rw [getD_map_mul, ← mul_add, List.map_set]

theorem set_zipWith_add (ρ1 ρ2 : List CQ) (L c : ℕ) (x : CQ)
    (h1 : ρ1.length = L) (h2 : ρ2.length = L) :
    (List.zipWith (· + ·) ρ1 ρ2).set c ((List.zipWith (· + ·) ρ1 ρ2).getD c 0 + x) =
      List.zipWith (· + ·) ρ1 (ρ2.set c (ρ2.getD c 0 + x)) := by
  by_cases hc : c < L
  · apply List.ext_getElem
    · simp [h1, h2]
    · intro i hLi hRi
      have hiL : i < L := by
        simp only [List.length_set, List.length_zipWith, h1, h2, min_self] at hLi
        exact hLi
      by_cases hi : i = c
      · subst hi
        rw [List.getElem_set_self, List.getElem_zipWith, List.getElem_set_self,
          getD_zipWith_add ρ1 ρ2 i (h1.trans h2.symm),
          List.getD_eq_getElem ρ1 0 (by rw [h1]; exact hiL)]
        exact add_assoc _ _ _
      · rw [List.getElem_set_ne (fun hh => hi hh.symm) _]
        rw [List.getElem_zipWith]
        rw [List.getElem_zipWith]
        rw [List.getElem_set_ne (fun hh => hi hh.symm) _]
  · rw [List.set_eq_of_length_le (by simp [h1, h2]; omega),
      List.set_eq_of_length_le (by omega)]

theorem addColData_smulData (a : CQ) (e : Data) (j : ℤ) (v : ℕ → CQ) :
    addColData (smulData a e) j (fun r => a * v r) = smulData a (addColData e j v) := by
  apply List.ext_getElem
  · simp [addColData, smulData]
  · intro r hL hR
    simp only [addColData, smulData, List.length_mapIdx, List.length_map] at hL hR
    have hb1 : r < (smulData a e).length := by simp [smulData]; exact hL
    have hb2 : r < (addColData (smulData a e) j (fun r => a * v r)).length := by
      simp [addColData, smulData]; exact hL
    have hb3 : r < (addColData e j v).length := by simp [addColData]; exact hL
    have hb4 : r < (smulData a (addColData e j v)).length := by
      simp [addColData, smulData]; exact hL
    rw [show (addColData (smulData a e) j (fun r => a * v r))[r] =
      (fun r row => (fun c => row.set c (row.getD c 0 + a * v r)) (wrapIx row.length j))
        r ((smulData a e)[r]) from List.getElem_mapIdx ..]
    rw [show (smulData a e)[r] =
      (e[r]).map (a * ·) from List.getElem_map ..]
    rw [show (smulData a (addColData e j v))[r] =
      ((addColData e j v)[r]).map (a * ·)
      from List.getElem_map ..]
    rw [show (addColData e j v)[r] =
      (fun r row => (fun c => row.set c (row.getD c 0 + v r)) (wrapIx row.length j))
        r (e[r]) from List.getElem_mapIdx ..]
    simp only [List.length_map]
    exact set_map_mul a (e[r]) (wrapIx (e[r]).length j) (v r)

theorem addColData_dataAdd {T L : ℕ} {d e : Data} (hd : shaped T L d)
    (he : shaped T L e) (j : ℤ) (v : ℕ → CQ) :
    addColData (dataAdd d e) j v = dataAdd d (addColData e j v) := by
  apply List.ext_getElem
  · simp [addColData, dataAdd, hd.1, he.1]
  · intro r hL hR
    simp only [addColData, dataAdd, List.length_mapIdx, List.length_zipWith,
      hd.1, he.1, min_self] at hL
    have hbd : r < d.length := by rw [hd.1]; exact hL
    have hbe : r < e.length := by rw [he.1]; exact hL
    have hb1 : r < (dataAdd d e).length := by simp [dataAdd, hd.1, he.1]; exact hL
    have hb2 : r < (addColData (dataAdd d e) j v).length := by
      simp [addColData, dataAdd, hd.1, he.1]; exact hL
    have hb3 : r < (addColData e j v).length := by simp [addColData, he.1]; exact hL
    have hb4 : r < (dataAdd d (addColData e j v)).length := by
      simp [addColData, dataAdd, hd.1, he.1]; exact hL
    have hdr : (d[r]).length = L := hd.2 _ (List.getElem_mem _)
    have her : (e[r]).length = L := he.2 _ (List.getElem_mem _)
    rw [show (addColData (dataAdd d e) j v)[r] =
      (fun r row => (fun c => row.set c (row.getD c 0 + v r)) (wrapIx row.length j))
        r ((dataAdd d e)[r])
      from List.getElem_mapIdx ..]
    rw [show (dataAdd d e)[r] =
      List.zipWith (· + ·) (d[r]) (e[r])
      from List.getElem_zipWith ..]
    rw [show (dataAdd d (addColData e j v))[r] =
      List.zipWith (· + ·) (d[r])
        ((addColData e j v)[r])
      from List.getElem_zipWith ..]
    rw [show (addColData e j v)[r] =
      (fun r row => (fun c => row.set c (row.getD c 0 + v r)) (wrapIx row.length j))
        r (e[r]) from List.getElem_mapIdx ..]
    simp only [List.length_zipWith, hdr, her, min_self]
    exact set_zipWith_add _ _ L _ (v r) hdr her

theorem smulData_zeroData (a : CQ) (T L : ℕ) :
    smulData a (zeroData T L) = zeroData T L := by
  simp [smulData, zeroData, List.map_replicate, mul_zero]

theorem dataAdd_zeroData_right {T L : ℕ} {d : Data} (hd : shaped T L d) :
    dataAdd d (zeroData T L) = d := by
  apply List.ext_getElem
  · simp [dataAdd, zeroData, hd.1]
  · intro r hL hR
    have hbz : r < (zeroData T L).length := by simp [zeroData, ← hd.1]; exact hR
    rw [show (dataAdd d (zeroData T L))[r] =
      List.zipWith (· + ·) (d[r])
        ((zeroData T L)[r])
      from List.getElem_zipWith ..]
    rw [show (zeroData T L)[r] =
      List.replicate L 0 from List.getElem_replicate ..]
    exact vecAdd_replicate_zero_right _ L (hd.2 _ (List.getElem_mem _))

end Ringdown

namespace Ringdown

/-! ## The (ℓ, m) loop of a QNM term is affine in the amplitude -/

theorem qnmLMFold_affine (cexp : CQ → CQ) (a : CQ) (res : QNMResult) (mterm : ℤ)
    (t : List ℚ) (t_ref : ℚ) (emin T L : ℕ) (d : Data) (hd : shaped T L d) :
    ∀ (LM : List (ℕ × ℤ)) (e u : Data), shaped T L e →
      qnmLMFold cexp 1 res mterm t t_ref emin LM e = .ok u →
      qnmLMFold cexp a res mterm t t_ref emin LM (dataAdd d (smulData a e)) =
        .ok (dataAdd d (smulData a u)) ∧ shaped T L u := by
  intro LM
  induction LM with
  | nil =>
    intro e u he h1
    unfold qnmLMFold at h1 ⊢
    rw [List.foldlM_nil] at h1
    have h2 : e = u := Except.ok.inj h1
    subst h2
    exact ⟨by rw [List.foldlM_nil]; rfl, he⟩
  | cons lm LM ih =>
    intro e u he h1
    unfold qnmLMFold at h1 ⊢
    rw [List.foldlM_cons] at h1 ⊢
    by_cases hm : lm.2 = mterm
    · cases hsel : maskSel res.C res.ells lm.1 with
      | nil =>
        rw [show lm_step cexp 1 res mterm t t_ref emin e lm = .error (.broadcastErr, e) by
            unfold lm_step; rw [if_pos hm, hsel], ebind_err] at h1
        exact absurd h1 (by simp)
      | cons c cs =>
        rw [show lm_step cexp 1 res mterm t t_ref emin e lm =
            .ok (addColData e (LM_index lm.1 lm.2 emin)
              (fun r => 1 * cexp (CQ.negI * res.omega * CQ.ofQ (t.getD r 0 - t_ref)) * c))
            by unfold lm_step; rw [if_pos hm, hsel], ebind_ok] at h1
        rw [show lm_step cexp a res mterm t t_ref emin (dataAdd d (smulData a e)) lm =
            .ok (addColData (dataAdd d (smulData a e)) (LM_index lm.1 lm.2 emin)
              (fun r => a * cexp (CQ.negI * res.omega * CQ.ofQ (t.getD r 0 - t_ref)) * c))
            by unfold lm_step; rw [if_pos hm, hsel], ebind_ok]
        have hv : (fun r => a * cexp (CQ.negI * res.omega * CQ.ofQ (t.getD r 0 - t_ref)) * c) =
            (fun r => a *
              (1 * cexp (CQ.negI * res.omega * CQ.ofQ (t.getD r 0 - t_ref)) * c)) := by
          funext r
          ring
        rw [hv, addColData_dataAdd hd (shaped_smulData he a),
          addColData_smulData a e (LM_index lm.1 lm.2 emin)
            (fun r => 1 * cexp (CQ.negI * res.omega * CQ.ofQ (t.getD r 0 - t_ref)) * c)]
        exact ih (addColData e _ _) u (shaped_addColData he _ _) h1
    · rw [show lm_step cexp 1 res mterm t t_ref emin e lm = .ok e by
          unfold lm_step; rw [if_neg hm], ebind_ok] at h1
      rw [show lm_step cexp a res mterm t t_ref emin (dataAdd d (smulData a e)) lm =
          .ok (dataAdd d (smulData a e)) by unfold lm_step; rw [if_neg hm], ebind_ok]
      exact ih e u he h1

theorem qnmLMFold_frozen (cexp : CQ → CQ) (A : CQ) (res : QNMResult) (mterm : ℤ)
    (t : List ℚ) (t_ref : ℚ) (emin T L : ℕ) (c0 : ℕ) :
    ∀ (LM : List (ℕ × ℤ)) (d u : Data), shaped T L d →
      qnmLMFold cexp A res mterm t t_ref emin LM d = .ok u →
      (∀ lm ∈ LM, lm.2 = mterm → wrapIx L (LM_index lm.1 lm.2 emin) ≠ c0) →
      (∀ r, entry u r c0 = entry d r c0) ∧ shaped T L u := by
  intro LM
  induction LM with
  | nil =>
    intro d u hd h1 hc
    unfold qnmLMFold at h1
    rw [List.foldlM_nil] at h1
    have h2 : d = u := Except.ok.inj h1
    subst h2
    exact ⟨fun r => rfl, hd⟩
  | cons lm LM ih =>
    intro d u hd h1 hc
    unfold qnmLMFold at h1
    rw [List.foldlM_cons] at h1
    by_cases hm : lm.2 = mterm
    · cases hsel : maskSel res.C res.ells lm.1 with
      | nil =>
        rw [show lm_step cexp A res mterm t t_ref emin d lm = .error (.broadcastErr, d) by
            unfold lm_step; rw [if_pos hm, hsel], ebind_err] at h1
        exact absurd h1 (by simp)
      | cons c cs =>
        rw [show lm_step cexp A res mterm t t_ref emin d lm =
            .ok (addColData d (LM_index lm.1 lm.2 emin)
              (fun r => A * cexp (CQ.negI * res.omega * CQ.ofQ (t.getD r 0 - t_ref)) * c))
            by unfold lm_step; rw [if_pos hm, hsel], ebind_ok] at h1
        obtain ⟨hent, hsh⟩ := ih _ u (shaped_addColData hd _ _) h1
          (fun lm' hlm' hm' => hc lm' (List.mem_cons_of_mem _ hlm') hm')
        refine ⟨fun r => ?_, hsh⟩
        rw [hent r]
        by_cases hr : r < d.length
        · refine entry_addColData_ne d _ _ r c0 ?_
          intro hceq
          refine hc lm (List.mem_cons_self lm LM) hm ?_
          rw [hceq]
          congr 1
          rw [List.getD_eq_getElem d [] hr]
          exact (hd.2 _ (List.getElem_mem hr)).symm
        · unfold entry
          rw [row_addColData_out d _ _ r hr]
    · rw [show lm_step cexp A res mterm t t_ref emin d lm = .ok d by
          unfold lm_step; rw [if_neg hm], ebind_ok] at h1
      exact ih d u hd h1 (fun lm' hlm' hm' => hc lm' (List.mem_cons_of_mem _ hlm') hm')

end Ringdown

namespace Ringdown

/-! ## A scalar-branch QNM term adds an amplitude-scaled unit contribution -/

theorem stepTerm_affine (oracle : Oracle) (cexp : CQ → CQ) (chi M : ℚ)
    (t : List ℚ) (t_ref : ℚ) (emin : ℕ) (LM : List (ℕ × ℤ)) (T L : ℕ)
    (d u : Data) (tm : Term) (a : CQ)
    (htype : tm.type = "QNM") (hA : tm.A = some a) (hd : shaped T L d)
    (hu : stepTerm oracle cexp (.scalar chi) (.scalar M) t t_ref emin LM
      (zeroData T L) { tm with A := some 1 } = .ok u) :
    stepTerm oracle cexp (.scalar chi) (.scalar M) t t_ref emin LM d tm =
      .ok (dataAdd d (smulData a u)) ∧ shaped T L u := by
  cases hmd : tm.mode with
  | none =>
    unfold stepTerm at hu
    rw [if_pos (show ({ tm with A := some 1 } : Term).type = "QNM" from htype),
      if_neg (by simp [MSpin.isArr]),
      show ({ tm with A := some 1 } : Term).mode = tm.mode from rfl, hmd] at hu
    exact absurd hu (by simp)
  | some md =>
    obtain ⟨ell, mm, n, sg⟩ := md
    unfold stepTerm at hu ⊢
    rw [if_pos (show ({ tm with A := some 1 } : Term).type = "QNM" from htype),
      if_neg (by simp [MSpin.isArr]),
      show ({ tm with A := some 1 } : Term).mode = tm.mode from rfl, hmd] at hu
    rw [if_pos htype, if_neg (by simp [MSpin.isArr]), hmd]
    cases hres : qnm_from_tuple oracle ell mm n sg chi M (-2) with
    | error e =>
      simp only [MSpin.sc, hres] at hu
      exact absurd hu (by simp)
    | ok res =>
      simp only [MSpin.sc, hres] at hu
      simp only [MSpin.sc, hres, hA]
      obtain ⟨hfold, hshu⟩ := qnmLMFold_affine cexp a res mm t t_ref emin T L d hd
        LM (zeroData T L) u (shaped_zeroData T L) hu
      rw [smulData_zeroData, dataAdd_zeroData_right hd] at hfold
      exact ⟨hfold, hshu⟩

theorem stepTerm_frozen (oracle : Oracle) (cexp : CQ → CQ) (chi M : ℚ)
    (t : List ℚ) (t_ref : ℚ) (emin : ℕ) (LM : List (ℕ × ℤ)) (T L : ℕ)
    (u : Data) (tm : Term) (ell n : ℕ) (mm sg : ℤ)
    (htype : tm.type = "QNM") (hmd : tm.mode = some (ell, mm, n, sg))
    (hu : stepTerm oracle cexp (.scalar chi) (.scalar M) t t_ref emin LM
      (zeroData T L) { tm with A := some 1 } = .ok u)
    (c0 : ℕ)
    (hc : ∀ lm ∈ LM, lm.2 = mm → wrapIx L (LM_index lm.1 lm.2 emin) ≠ c0) :
    ∀ r, entry u r c0 = 0 := by
  unfold stepTerm at hu
  rw [if_pos (show ({ tm with A := some 1 } : Term).type = "QNM" from htype),
    if_neg (by simp [MSpin.isArr]),
    show ({ tm with A := some 1 } : Term).mode = tm.mode from rfl, hmd] at hu
  cases hres : qnm_from_tuple oracle ell mm n sg chi M (-2) with
  | error e =>
    simp only [MSpin.sc, hres] at hu
    exact absurd hu (by simp)
  | ok res =>
    simp only [MSpin.sc, hres] at hu
    obtain ⟨hent, hsh⟩ := qnmLMFold_frozen cexp 1 res mm t t_ref emin T L c0
      LM (zeroData T L) u (shaped_zeroData T L) hu hc
    intro r
    rw [hent r]
    exact entry_zeroData T L r c0

end Ringdown

namespace Ringdown

/-! ## Decomposition of the synthesized target over the dictionary terms -/

theorem foldlM_singleton {ε α β : Type} (f : β → α → Except ε β) (b : β) (x : α)
    (u : β) (h : [x].foldlM f b = .ok u) : f b x = .ok u := by
  rw [List.foldlM_cons] at h
  cases hf : f b x with
  | error e =>
    rw [hf, ebind_err] at h
    exact absurd h (by simp)
  | ok v =>
    rw [hf, ebind_ok, List.foldlM_nil] at h
    exact congrArg _ (Except.ok.inj h)

theorem mem_enum_map_snd (D0 : List (ℕ × Term)) (q : ℕ × Term)
    (hq : q ∈ (D0.map (·.2)).enum) :
    q.1 < D0.length ∧ q.2 = (D0.getD q.1 (0, default)).2 := by
  have hget := List.mem_enum_iff_getElem?.mp hq
  obtain ⟨hlt, helem⟩ := List.getElem?_eq_some_iff.mp hget
  rw [List.length_map] at hlt
  refine ⟨hlt, ?_⟩
  rw [List.getD_eq_getElem _ _ hlt]
  have hlt2 : q.1 < (D0.map (·.2)).length := by simpa using hlt
  rw [show (D0.map (·.2))[q.1] = D0[q.1].2 from List.getElem_map _]
    at helem
  exact helem.symm

theorem synthTermsFold_decomp (oracle : Oracle) (cexp : CQ → CQ) (chi M : ℚ)
    (t : List ℚ) (t_ref : ℚ) (emin : ℕ) (LM : List (ℕ × ℤ)) (T L : ℕ)
    (colD : ℕ → Data) :
    ∀ (P : List (ℕ × Term)) (d : Data), shaped T L d →
      (∀ q ∈ P, q.2.type = "QNM" ∧ (∃ a, q.2.A = some a) ∧
        stepTerm oracle cexp (.scalar chi) (.scalar M) t t_ref emin LM
          (zeroData T L) { q.2 with A := some 1 } = .ok (colD q.1)) →
      synthTermsFold oracle cexp (.scalar chi) (.scalar M) (P.map (·.2)) t t_ref emin
          LM d =
        .ok (P.foldl (fun acc q => dataAdd acc (smulData (q.2.A.getD 0) (colD q.1))) d) ∧
      shaped T L
        (P.foldl (fun acc q => dataAdd acc (smulData (q.2.A.getD 0) (colD q.1))) d) := by
  intro P
  induction P with
  | nil =>
    intro d hd h
    unfold synthTermsFold
    simp only [List.map_nil, List.foldlM_nil, List.foldl_nil]
    exact ⟨rfl, hd⟩
  | cons q P ih =>
    intro d hd h
    obtain ⟨htype, ⟨a, hA⟩, hstep⟩ := h q (List.mem_cons_self q P)
    obtain ⟨hq, hshu⟩ := stepTerm_affine oracle cexp chi M t t_ref emin LM T L d
      (colD q.1) q.2 a htype hA hd hstep
    unfold synthTermsFold
    simp only [List.map_cons, List.foldlM_cons, List.foldl_cons]
    rw [hq, ebind_ok]
    have hACast : q.2.A.getD 0 = a := by rw [hA]; rfl
    rw [hACast]
    exact ih (dataAdd d (smulData a (colD q.1)))
      (shaped_dataAdd hd (shaped_smulData hshu a))
      (fun q' hq' => h q' (List.mem_cons_of_mem _ hq'))

theorem synth_target_decomp (oracle : Oracle) (cexp : CQ → CQ) (chi M : ℚ)
    (t : List ℚ) (t_ref : ℚ) (emin emax : ℕ)
    (D0 : List (ℕ × Term)) (td : Data) (colD : ℕ → Data)
    (hterm : ∀ kv ∈ D0, kv.2.type = "QNM" ∧ ∃ a, kv.2.A = some a)
    (hcols : ∀ p, p < D0.length →
      data_functor oracle cexp (.scalar chi) (.scalar M) [(0, unit_term D0 p)] none
        t t_ref emin emax = .ok (colD p))
    (hsynth : data_functor oracle cexp (.scalar chi) (.scalar M) D0 none
        t t_ref emin emax = .ok td) :
    td = (D0.map (·.2)).enum.foldl
      (fun acc q => dataAdd acc (smulData (q.2.A.getD 0) (colD q.1)))
      (zeroData t.length (LM_list emin emax).length) ∧
    shaped t.length (LM_list emin emax).length td ∧
    ∀ p, p < D0.length → shaped t.length (LM_list emin emax).length (colD p) := by
  have hstepOf : ∀ p, p < D0.length →
      stepTerm oracle cexp (.scalar chi) (.scalar M) t t_ref emin
        (LM_list emin emax) (zeroData t.length (LM_list emin emax).length)
        (unit_term D0 p) = .ok (colD p) := by
    intro p hp
    exact foldlM_singleton _ _ _ _
      (show [unit_term D0 p].foldlM
        (stepTerm oracle cexp (.scalar chi) (.scalar M) t t_ref emin
          (LM_list emin emax))
        (zeroData t.length (LM_list emin emax).length) = .ok (colD p)
       from hcols p hp)
  have hunit_type : ∀ p, p < D0.length → (unit_term D0 p).type = "QNM" := by
    intro p hp
    show (D0.getD p (0, default)).2.type = "QNM"
    rw [List.getD_eq_getElem _ _ hp]
    exact (hterm _ (List.getElem_mem hp)).1
  have hshaped_col : ∀ p, p < D0.length →
      shaped t.length (LM_list emin emax).length (colD p) := by
    intro p hp
    exact (stepTerm_affine oracle cexp chi M t t_ref emin (LM_list emin emax)
      t.length (LM_list emin emax).length
      (zeroData t.length (LM_list emin emax).length) (colD p)
      (unit_term D0 p) 1 (hunit_type p hp) rfl
      (shaped_zeroData _ _) (hstepOf p hp)).2
  have hP : ∀ q ∈ (D0.map (·.2)).enum, q.2.type = "QNM" ∧ (∃ a, q.2.A = some a) ∧
      stepTerm oracle cexp (.scalar chi) (.scalar M) t t_ref emin
        (LM_list emin emax) (zeroData t.length (LM_list emin emax).length)
        { q.2 with A := some 1 } = .ok (colD q.1) := by
    intro q hq
    obtain ⟨hlt, hsnd⟩ := mem_enum_map_snd D0 q hq
    have hmem : D0[q.1] ∈ D0 := List.getElem_mem hlt
    have hkv := hterm _ hmem
    refine ⟨?_, ?_, ?_⟩
    · rw [hsnd, List.getD_eq_getElem _ _ hlt]
      exact hkv.1
    · obtain ⟨a, ha⟩ := hkv.2
      exact ⟨a, by rw [hsnd, List.getD_eq_getElem _ _ hlt]; exact ha⟩
    · rw [show ({ q.2 with A := some 1 } : Term) = unit_term D0 q.1 by
        rw [hsnd]; rfl]
      exact hstepOf q.1 hlt
  obtain ⟨hfold, hsh⟩ := synthTermsFold_decomp oracle cexp chi M t t_ref emin
    (LM_list emin emax) t.length (LM_list emin emax).length colD
    ((D0.map (·.2)).enum) (zeroData t.length (LM_list emin emax).length)
    (shaped_zeroData _ _) hP
  rw [List.enum_map_snd] at hfold
  have htd := Except.ok.inj ((hsynth.symm).trans hfold)
  exact ⟨htd, htd ▸ hsh, hshaped_col⟩
end Ringdown

namespace Ringdown

/-! ## Arithmetic of the flat (ℓ, m) column index -/

theorem LM_index_nonneg (l : ℕ) (m : ℤ) (emin : ℕ) (hl : emin ≤ l)
    (hm : -(l : ℤ) ≤ m) : 0 ≤ LM_index l m emin := by
  unfold LM_index
  have hc : (emin : ℤ) ≤ l := by exact_mod_cast hl
  nlinarith

theorem LM_index_inj (l1 l2 : ℕ) (m1 m2 : ℤ) (emin : ℕ)
    (h1a : -(l1 : ℤ) ≤ m1) (h1b : m1 ≤ l1) (h2a : -(l2 : ℤ) ≤ m2) (h2b : m2 ≤ l2)
    (h : LM_index l1 m1 emin = LM_index l2 m2 emin) : l1 = l2 ∧ m1 = m2 := by
  unfold LM_index at h
  have key : (l1 : ℤ) * (l1 + 1) + m1 = (l2 : ℤ) * (l2 + 1) + m2 := by linarith
  have hll : l1 = l2 := by
    rcases Nat.lt_trichotomy l1 l2 with hlt | heq | hgt
    · exfalso
      have hc : (l1 : ℤ) + 1 ≤ l2 := by exact_mod_cast hlt
      nlinarith
    · exact heq
    · exfalso
      have hc : (l2 : ℤ) + 1 ≤ l1 := by exact_mod_cast hgt
      nlinarith
  subst hll
  exact ⟨rfl, by linarith⟩

theorem mem_LM_list (emin emax : ℕ) (p : ℕ × ℤ) :
    p ∈ LM_list emin emax ↔
      emin ≤ p.1 ∧ p.1 ≤ emax ∧ -(p.1 : ℤ) ≤ p.2 ∧ p.2 ≤ p.1 := by
  unfold LM_list
  rw [List.mem_flatMap]
  constructor
  · rintro ⟨l, hl, hp⟩
    rw [List.mem_range'_1] at hl
    rw [List.mem_map] at hp
    obtain ⟨k, hk, heq⟩ := hp
    have hk' : k ∈ (List.range (2 * l + 1)).flatMap (fun a => ([(a : ℤ)] : List ℤ)) := hk
    rw [List.mem_flatMap] at hk'
    obtain ⟨a, ha, hka⟩ := hk'
    rw [List.mem_range] at ha
    rw [List.mem_singleton] at hka
    rw [← heq]
    simp only
    omega
  · intro hcond
    refine ⟨p.1, ?_, ?_⟩
    · rw [List.mem_range'_1]
      omega
    · rw [List.mem_map]
      refine ⟨((p.2 + p.1).toNat : ℤ), ?_, ?_⟩
      · show ((p.2 + p.1).toNat : ℤ) ∈
          (List.range (2 * p.1 + 1)).flatMap (fun a => ([(a : ℤ)] : List ℤ))
        rw [List.mem_flatMap]
        exact ⟨(p.2 + p.1).toNat, by rw [List.mem_range]; omega,
          by rw [List.mem_singleton]⟩
      · have h2 : ((p.2 + p.1).toNat : ℤ) - p.1 = p.2 := by omega
        rw [h2]

theorem mem_data_index (emin emax : ℕ) (m : ℤ) (j : ℤ) :
    j ∈ data_index_m emin emax none m ↔
      ∃ l : ℕ, 2 ≤ l ∧ l ≤ emax ∧ j = LM_index l m emin := by
  show j ∈ (List.range' 2 (emax + 1 - 2)).map (fun l => LM_index l m emin) ↔ _
  rw [List.mem_map]
  constructor
  · rintro ⟨l, hl, heq⟩
    rw [List.mem_range'_1] at hl
    exact ⟨l, by omega, by omega, heq.symm⟩
  · rintro ⟨l, hl2, hlmax, heq⟩
    refine ⟨l, ?_, heq.symm⟩
    rw [List.mem_range'_1]
    omega

theorem wrapIx_LM_ne (L : ℕ) (l1 l2 : ℕ) (m1 m2 : ℤ) (emin : ℕ)
    (h1a : -(l1 : ℤ) ≤ m1) (h1b : m1 ≤ l1) (h2a : -(l2 : ℤ) ≤ m2) (h2b : m2 ≤ l2)
    (hl1 : emin ≤ l1) (hl2 : emin ≤ l2) (hne : m1 ≠ m2) :
    wrapIx L (LM_index l1 m1 emin) ≠ wrapIx L (LM_index l2 m2 emin) := by
  have hn1 := LM_index_nonneg l1 m1 emin hl1 h1a
  have hn2 := LM_index_nonneg l2 m2 emin hl2 h2a
  unfold wrapIx
  rw [if_neg (by omega), if_neg (by omega)]
  intro hEq
  have hZ : LM_index l1 m1 emin = LM_index l2 m2 emin := by omega
  exact hne (LM_index_inj l1 l2 m1 m2 emin h1a h1b h2a h2b hZ).2

theorem length_data_index (emin emax : ℕ) (m : ℤ) :
    (data_index_m emin emax none m).length = emax + 1 - 2 := by
  show ((List.range' 2 (emax + 1 - 2)).map (fun l => LM_index l m emin)).length = _
  rw [List.length_map, List.length_range']

end Ringdown

namespace Ringdown

/-! ## Column selection and flattening are linear -/

theorem length_selectCols (d : Data) (idxs : List ℤ) :
    (selectCols d idxs).length = d.length := by
  simp [selectCols]

theorem rowlen_selectCols (d : Data) (idxs : List ℤ) (row : List CQ)
    (h : row ∈ selectCols d idxs) : row.length = idxs.length := by
  obtain ⟨row0, _, hrow⟩ := List.mem_map.mp h
  rw [← hrow, List.length_map]

theorem selflat_length (d : Data) (idxs : List ℤ) (T : ℕ) (hT : d.length = T) :
    (selectCols d idxs).flatten.length = T * idxs.length := by
  rw [List.length_flatten]
  have hrep : (selectCols d idxs).map List.length = List.replicate T idxs.length := by
    rw [List.eq_replicate_iff]
    refine ⟨by simp [selectCols, hT], fun b hb => ?_⟩
    obtain ⟨row, hrow, hlen⟩ := List.mem_map.mp hb
    rw [← hlen, rowlen_selectCols d idxs row hrow]
  rw [hrep]
  simp [List.sum_replicate]

theorem row_sel_add (L : ℕ) (ρ1 ρ2 : List CQ) (h1 : ρ1.length = L)
    (h2 : ρ2.length = L) :
    ∀ idxs : List ℤ,
      idxs.map (fun j => (List.zipWith (· + ·) ρ1 ρ2).getD
          (wrapIx (List.zipWith (· + ·) ρ1 ρ2).length j) 0) =
        List.zipWith (· + ·)
          (idxs.map (fun j => ρ1.getD (wrapIx ρ1.length j) 0))
          (idxs.map (fun j => ρ2.getD (wrapIx ρ2.length j) 0)) := by
  intro idxs
  induction idxs with
  | nil => simp
  | cons j idxs ih =>
    simp only [List.map_cons, List.zipWith_cons_cons]
    rw [ih]
    congr 1
    rw [getD_zipWith_add ρ1 ρ2 _ (h1.trans h2.symm), h1, h2,
      List.length_zipWith, h1, h2, min_self]

theorem selectCols_dataAdd {T L : ℕ} {d e : Data} (hd : shaped T L d)
    (he : shaped T L e) (idxs : List ℤ) :
    selectCols (dataAdd d e) idxs = dataAdd (selectCols d idxs) (selectCols e idxs) := by
  apply List.ext_getElem
  · simp [selectCols, dataAdd, hd.1, he.1]
  · intro r hL hR
    have hrT : r < T := by
      simpa [selectCols, dataAdd, hd.1, he.1] using hL
    have hbd : r < d.length := by rw [hd.1]; exact hrT
    have hbe : r < e.length := by rw [he.1]; exact hrT
    have hb1 : r < (dataAdd d e).length := by simp [dataAdd, hd.1, he.1]; exact hrT
    have hb2 : r < (selectCols d idxs).length := by simp [selectCols, hd.1]; exact hrT
    have hb3 : r < (selectCols e idxs).length := by simp [selectCols, he.1]; exact hrT
    rw [show (selectCols (dataAdd d e) idxs)[r] =
      (fun row => idxs.map (fun j => row.getD (wrapIx row.length j) 0))
        ((dataAdd d e)[r])
      from List.getElem_map _]
    rw [show (dataAdd d e)[r] =
      List.zipWith (· + ·) (d[r]) (e[r])
      from List.getElem_zipWith ..]
    rw [show (dataAdd (selectCols d idxs) (selectCols e idxs))[r] =
      List.zipWith (· + ·)
        ((selectCols d idxs)[r])
        ((selectCols e idxs)[r])
      from List.getElem_zipWith ..]
    rw [show (selectCols d idxs)[r] =
      (fun row => idxs.map (fun j => row.getD (wrapIx row.length j) 0))
        (d[r]) from List.getElem_map _]
    rw [show (selectCols e idxs)[r] =
      (fun row => idxs.map (fun j => row.getD (wrapIx row.length j) 0))
        (e[r]) from List.getElem_map _]
    exact row_sel_add L _ _ (hd.2 _ (List.getElem_mem _)) (he.2 _ (List.getElem_mem _))
      idxs

theorem selectCols_smulData (a : CQ) (d : Data) (idxs : List ℤ) :
    selectCols (smulData a d) idxs = smulData a (selectCols d idxs) := by
  unfold selectCols smulData
  rw [List.map_map, List.map_map]
  apply List.map_congr_left
  intro row hrow
  simp only [Function.comp]
  rw [List.map_map]
  apply List.map_congr_left
  intro j hj
  simp only [Function.comp, List.length_map]
  exact getD_map_mul a row (wrapIx row.length j)

theorem flatten_dataAdd (K : ℕ) :
    ∀ (A B : List (List CQ)), A.length = B.length →
      (∀ row ∈ A, row.length = K) → (∀ row ∈ B, row.length = K) →
      (dataAdd A B).flatten = vecAdd A.flatten B.flatten := by
  intro A
  induction A with
  | nil =>
    intro B hlen _ _
    have : B = [] := List.eq_nil_of_length_eq_zero hlen.symm
    subst this
    rfl
  | cons r A ih =>
    intro B hlen hA hB
    cases B with
    | nil => simp at hlen
    | cons s B =>
      simp only [dataAdd, List.zipWith_cons_cons, List.flatten_cons]
      rw [show vecAdd (r ++ A.flatten) (s ++ B.flatten) =
        List.zipWith (· + ·) r s ++ vecAdd A.flatten B.flatten from
        List.zipWith_append _ _ _ _ _
          ((hA r (List.mem_cons_self r A)).trans (hB s (List.mem_cons_self s B)).symm)]
      congr 1
      exact ih B (by simpa using hlen)
        (fun row hrow => hA row (List.mem_cons_of_mem _ hrow))
        (fun row hrow => hB row (List.mem_cons_of_mem _ hrow))

theorem flatten_smulData (a : CQ) (A : List (List CQ)) :
    (smulData a A).flatten = smulVec a A.flatten := by
  unfold smulData smulVec
  rw [List.map_flatten]

theorem selectCols_zeroData (T L : ℕ) (idxs : List ℤ) :
    selectCols (zeroData T L) idxs = zeroData T idxs.length := by
  unfold selectCols zeroData
  rw [List.map_replicate]
  congr 1
  rw [List.eq_replicate_iff]
  refine ⟨by simp, fun b hb => ?_⟩
  obtain ⟨j, _, hjb⟩ := List.mem_map.mp hb
  rw [← hjb]
  exact getD_replicate_zero L _

theorem flatten_zeroData (T K : ℕ) :
    (zeroData T K).flatten = List.replicate (T * K) 0 := by
  induction T with
  | zero => simp [zeroData]
  | succ T ih =>
    unfold zeroData at ih ⊢
    rw [List.replicate_succ, List.flatten_cons, ih, ← List.replicate_add]
    have : K + T * K = (T + 1) * K := by ring
    rw [this]

theorem selflat_zero_entries (idxs : List ℤ) (T L : ℕ) (u : Data)
    (hu : shaped T L u)
    (hz : ∀ j ∈ idxs, ∀ r, entry u r (wrapIx L j) = 0) :
    (selectCols u idxs).flatten = List.replicate (T * idxs.length) 0 := by
  have hsel : selectCols u idxs = zeroData T idxs.length := by
    unfold zeroData
    rw [List.eq_replicate_iff]
    refine ⟨by rw [length_selectCols, hu.1], fun row hrow => ?_⟩
    obtain ⟨row0, hrow0, hrowe⟩ := List.mem_map.mp hrow
    obtain ⟨r, hr, hre⟩ := List.mem_iff_getElem.mp hrow0
    rw [List.eq_replicate_iff]
    refine ⟨by rw [← hrowe, List.length_map], fun b hb => ?_⟩
    rw [← hrowe] at hb
    obtain ⟨j, hj, hjb⟩ := List.mem_map.mp hb
    rw [← hjb]
    have hlen : row0.length = L := hu.2 _ hrow0
    have hgetD : u.getD r [] = row0 := by
      rw [List.getD_eq_getElem _ _ hr, hre]
    have := hz j hj r
    unfold entry at this
    rw [hgetD] at this
    rw [hlen]
    exact this
  rw [hsel]
  exact flatten_zeroData T idxs.length

theorem foldl_filter_inv {α β : Type} (pb : α → Bool) (f : β → α → β)
    (Pr : β → Prop) :
    ∀ (l : List α) (b : β), Pr b →
      (∀ acc x, Pr acc → x ∈ l → Pr (f acc x)) →
      (∀ acc x, Pr acc → x ∈ l → pb x = false → f acc x = acc) →
      l.foldl f b = (l.filter pb).foldl f b := by
  intro l
  induction l with
  | nil => intro b _ _ _; rfl
  | cons x l ih =>
    intro b hb hkeep hdrop
    cases hpb : pb x with
    | true =>
      rw [List.filter_cons_of_pos hpb, List.foldl_cons, List.foldl_cons]
      exact ih (f b x) (hkeep b x hb (List.mem_cons_self x l))
        (fun acc y hacc hy => hkeep acc y hacc (List.mem_cons_of_mem _ hy))
        (fun acc y hacc hy hpy => hdrop acc y hacc (List.mem_cons_of_mem _ hy) hpy)
    | false =>
      rw [List.filter_cons_of_neg (by simp [hpb]), List.foldl_cons,
        hdrop b x hb (List.mem_cons_self x l) hpb]
      exact ih b hb
        (fun acc y hacc hy => hkeep acc y hacc (List.mem_cons_of_mem _ hy))
        (fun acc y hacc hy hpy => hdrop acc y hacc (List.mem_cons_of_mem _ hy) hpy)

theorem selflat_fold (idxs : List ℤ) (T L : ℕ) (colD : ℕ → Data) :
    ∀ (P : List (ℕ × Term)) (base : Data), shaped T L base →
      (∀ q ∈ P, shaped T L (colD q.1)) →
      (selectCols (P.foldl
          (fun acc q => dataAdd acc (smulData (q.2.A.getD 0) (colD q.1))) base)
        idxs).flatten =
      P.foldl (fun acc q => vecAdd acc
          (smulVec (q.2.A.getD 0) ((selectCols (colD q.1) idxs).flatten)))
        ((selectCols base idxs).flatten) := by
  intro P
  induction P with
  | nil =>
    intro base _ _
    rfl
  | cons q P ih =>
    intro base hbase hcol
    simp only [List.foldl_cons]
    have hq := hcol q (List.mem_cons_self q P)
    have hstep : (selectCols (dataAdd base (smulData (q.2.A.getD 0) (colD q.1)))
        idxs).flatten =
        vecAdd ((selectCols base idxs).flatten)
          (smulVec (q.2.A.getD 0) ((selectCols (colD q.1) idxs).flatten)) := by
      rw [selectCols_dataAdd hbase (shaped_smulData hq _)]
      rw [flatten_dataAdd idxs.length (selectCols base idxs)
        (selectCols (smulData (q.2.A.getD 0) (colD q.1)) idxs)
        (by rw [length_selectCols, length_selectCols, hbase.1, (shaped_smulData hq _).1])
        (fun row hrow => rowlen_selectCols _ _ row hrow)
        (fun row hrow => rowlen_selectCols _ _ row hrow)]
      rw [selectCols_smulData, flatten_smulData]
    rw [← hstep]
    exact ih (dataAdd base (smulData (q.2.A.getD 0) (colD q.1)))
      (shaped_dataAdd hbase (shaped_smulData hq _))
      (fun q' hq' => hcol q' (List.mem_cons_of_mem _ hq'))

end Ringdown

namespace Ringdown

/-! ## The observation vector is the design matrix applied to the amplitudes -/

theorem length_foldr_vecAdd {α : Type} (g : α → List CQ) (N : ℕ) (l : List α)
    (hg : ∀ x ∈ l, (g x).length = N) :
    (l.foldr (fun x acc => vecAdd (g x) acc) (List.replicate N 0)).length = N := by
  induction l with
  | nil => simp
  | cons x l ih =>
    rw [List.foldr_cons, length_vecAdd, hg x (List.mem_cons_self x l),
      ih (fun y hy => hg y (List.mem_cons_of_mem _ hy))]
    simp

theorem obs_decomp (emax T L : ℕ) (m : ℤ) (D0 : List (ℕ × Term)) (td : Data)
    (colD : ℕ → Data)
    (htd : td = (D0.map (·.2)).enum.foldl
      (fun acc q => dataAdd acc (smulData (q.2.A.getD 0) (colD q.1))) (zeroData T L))
    (hshape_col : ∀ p, p < D0.length → shaped T L (colD p))
    (hforeign : ∀ q ∈ (D0.map (·.2)).enum,
      (q.2.mode.elim false (fun md => decide (md.2.1 = m))) = false →
      ∀ j ∈ data_index_m 2 emax none m, ∀ r, entry (colD q.1) r (wrapIx L j) = 0)
    (hgrp : group_m D0 m ≠ []) :
    obsVec td 2 emax m =
      matVecCols (designCols colD D0 2 emax m) (ampVec D0 m) := by
  have hcolP : ∀ q ∈ (D0.map (·.2)).enum, shaped T L (colD q.1) :=
    fun q hq => hshape_col q.1 (mem_enum_map_snd D0 q hq).1
  have hmemP : ∀ x, x ∈ group_m D0 m → x ∈ (D0.map (·.2)).enum := by
    intro x hx
    exact (List.mem_filter.mp (show x ∈ (D0.map (·.2)).enum.filter
      (fun p => p.2.mode.elim false (fun md => decide (md.2.1 = m))) from hx)).1
  have hglen : ∀ q ∈ (D0.map (·.2)).enum,
      ((selectCols (colD q.1) (data_index_m 2 emax none m)).flatten).length =
        T * (data_index_m 2 emax none m).length :=
    fun q hq => selflat_length _ _ T (hcolP q hq).1
  show (selectCols td (data_index_m 2 emax none m)).flatten = _
  rw [htd]
  rw [selflat_fold (data_index_m 2 emax none m) T L colD ((D0.map (·.2)).enum)
    (zeroData T L) (shaped_zeroData T L) hcolP]
  rw [selectCols_zeroData, flatten_zeroData]
  rw [foldl_filter_inv (fun q => q.2.mode.elim false (fun md => decide (md.2.1 = m)))
    (fun acc q => vecAdd acc
      (smulVec (q.2.A.getD 0) ((selectCols (colD q.1) (data_index_m 2 emax none m)).flatten)))
    (fun acc => acc.length = T * (data_index_m 2 emax none m).length)
    ((D0.map (·.2)).enum) (List.replicate (T * (data_index_m 2 emax none m).length) 0)
    (by simp)
    (fun acc x hacc hx => by
      show (vecAdd acc (smulVec (x.2.A.getD 0)
        ((selectCols (colD x.1) (data_index_m 2 emax none m)).flatten))).length =
        T * (data_index_m 2 emax none m).length
      rw [length_vecAdd, length_smulVec, hglen x hx, hacc]
      simp)
    (fun acc x hacc hx hpb => by
      show vecAdd acc (smulVec (x.2.A.getD 0)
        ((selectCols (colD x.1) (data_index_m 2 emax none m)).flatten)) = acc
      rw [selflat_zero_entries (data_index_m 2 emax none m) T L (colD x.1)
        (hcolP x hx) (fun j hj r => hforeign x hx hpb j hj r),
        smulVec_replicate_zero, vecAdd_replicate_zero_right acc _ hacc])]
  rw [show ((D0.map (·.2)).enum.filter
      (fun q => q.2.mode.elim false (fun md => decide (md.2.1 = m)))) =
    group_m D0 m from rfl]
  have hcols2 : designCols colD D0 2 emax m = (group_m D0 m).map
      (fun q => (selectCols (colD q.1) (data_index_m 2 emax none m)).flatten) := by
    unfold designCols
    rw [show gpos D0 m = (group_m D0 m).map (·.1) from rfl, List.map_map]
    rfl
  have hamps2 : ampVec D0 m = (group_m D0 m).map (fun q => q.2.A.getD 0) := by
    unfold ampVec
    rw [show gpos D0 m = (group_m D0 m).map (·.1) from rfl, List.map_map]
    apply List.map_congr_left
    intro q hq
    have hsnd := (mem_enum_map_snd D0 q (hmemP q hq)).2
    simp only [Function.comp]
    rw [← hsnd]
  rw [hcols2, hamps2]
  unfold matVecCols
  rw [List.zip_map', List.foldr_map]
  have hhead : (((group_m D0 m).map
      (fun q => (selectCols (colD q.1) (data_index_m 2 emax none m)).flatten)).headD
        []).length = T * (data_index_m 2 emax none m).length := by
    cases hgpc : group_m D0 m with
    | nil => exact absurd hgpc hgrp
    | cons q0 gp' =>
      simp only [List.map_cons, List.headD_cons]
      exact hglen q0 (hmemP q0 (hgpc ▸ List.mem_cons_self q0 gp'))
  rw [hhead]
  rw [foldl_vecAdd_eq_foldr
    (fun q => smulVec (q.2.A.getD 0)
      ((selectCols (colD q.1) (data_index_m 2 emax none m)).flatten))
    (T * (data_index_m 2 emax none m).length) (group_m D0 m)
    (List.replicate (T * (data_index_m 2 emax none m).length) 0) (by simp)
    (fun x hx => by rw [length_smulVec]; exact hglen x (hmemP x hx))]
  exact vecAdd_replicate_zero_left _ _
    (length_foldr_vecAdd _ _ (group_m D0 m)
      (fun x hx => by rw [length_smulVec]; exact hglen x (hmemP x hx)))

end Ringdown

namespace Ringdown

/-! ## Reconstructing the dictionary from stripped state plus amplitudes -/

theorem stripA_eq_mode_at {st st' : List (ℕ × Term)} (h : stripA st = stripA st')
    (q : ℕ) :
    (st.getD q (0, default)).2.mode = (st'.getD q (0, default)).2.mode := by
  have hlen := stripA_eq_length h
  by_cases hq : q < st.length
  · have hg : (stripA st).getD q (0, default) = (stripA st').getD q (0, default) := by
      rw [h]
    simp only [stripA] at hg
    rw [List.getD_eq_getElem _ _ (by simpa using hq),
        List.getD_eq_getElem _ _ (by simp; omega)] at hg
    simp only [List.getElem_map] at hg
    have h2 := congrArg Prod.snd hg
    simp only at h2
    injection h2 with e1 e2 e3 e4 e5
    rw [List.getD_eq_getElem _ _ hq, List.getD_eq_getElem _ _ (by omega)]
    exact e2
  · rw [List.getD_eq_default _ _ (Nat.le_of_not_lt hq),
        List.getD_eq_default _ _ (by omega)]

theorem term_eq_of_stripped {a b : Term}
    (h : ({ a with A := none } : Term) = { b with A := none }) (hA : a.A = b.A) :
    a = b := by
  cases a
  cases b
  injection h with e1 e2 e3 e4 e5
  simp only at e1 e2 e4 e5 hA
  subst e1
  subst e2
  subst e4
  subst e5
  subst hA
  rfl

theorem getD_eq_of_stripA {st stB : List (ℕ × Term)} (h : stripA st = stripA stB)
    (q : ℕ) (hq : q < st.length)
    (hA : (st.getD q (0, default)).2.A = (stB.getD q (0, default)).2.A) :
    st.getD q (0, default) = stB.getD q (0, default) := by
  have hlen := stripA_eq_length h
  have hg : (stripA st).getD q (0, default) = (stripA stB).getD q (0, default) := by
    rw [h]
  simp only [stripA] at hg
  rw [List.getD_eq_getElem _ _ (by simpa using hq),
      List.getD_eq_getElem _ _ (by simp; omega)] at hg
  simp only [List.getElem_map] at hg
  have h1 := congrArg Prod.fst hg
  have h2 := congrArg Prod.snd hg
  simp only at h1 h2
  rw [List.getD_eq_getElem _ _ hq, List.getD_eq_getElem _ _ (by omega)] at hA ⊢
  exact Prod.ext h1 (term_eq_of_stripped h2 hA)

theorem fit_m_list_src (fixed : List (ℕ × Term)) :
    ∀ (acc res : List ℤ), fixed.foldlM m_step acc = .ok res →
      ∀ x ∈ res, x ∈ acc ∨ ∃ kv ∈ fixed, ∃ md, kv.2.mode = some md ∧ md.2.1 = x := by
  induction fixed with
  | nil =>
    intro acc res h x hx
    rw [List.foldlM_nil] at h
    exact Or.inl ((Except.ok.inj h) ▸ hx)
  | cons kv fixed ih =>
    intro acc res h x hx
    rw [List.foldlM_cons] at h
    cases hmd : kv.2.mode with
    | none =>
      rw [show m_step acc kv = .error (.keyErr "mode") by unfold m_step; rw [hmd],
        ebind_err] at h
      exact absurd h (by simp)
    | some md =>
      rw [m_step_some acc kv md hmd, ebind_ok] at h
      rcases ih _ res h x hx with hacc | ⟨kv', hkv', md', hmd', hx'⟩
      · by_cases hin : md.2.1 ∈ acc
        · rw [if_pos hin] at hacc
          exact Or.inl hacc
        · rw [if_neg hin] at hacc
          rcases List.mem_append.mp hacc with hacc | hacc
          · exact Or.inl hacc
          · refine Or.inr ⟨kv, List.mem_cons_self kv fixed, md, hmd, ?_⟩
            rw [List.mem_singleton] at hacc
            exact hacc.symm
      · exact Or.inr ⟨kv', List.mem_cons_of_mem _ hkv', md', hmd', hx'⟩

theorem truncEll_data (w : WM) (T : ℕ)
    (hsh : shaped T (LM_list w.ell_min w.ell_max).length w.data) :
    (truncEll w w.ell_max).data = w.data := by
  show w.data.map (List.take (LM_list w.ell_min w.ell_max).length) = w.data
  have hcongr : ∀ row ∈ w.data,
      row.take (LM_list w.ell_min w.ell_max).length = id row := by
    intro row hrow
    show row.take (LM_list w.ell_min w.ell_max).length = row
    exact List.take_of_length_le (le_of_eq (hsh.2 row hrow))
  rw [List.map_congr_left hcongr, List.map_id]

end Ringdown

namespace Ringdown

/-! ## The self-fit residual is identically zero -/

theorem set_replicate_zero (L c : ℕ) :
    (List.replicate L (0 : CQ)).set c 0 = List.replicate L 0 := by
  rw [List.eq_replicate_iff]
  refine ⟨by simp, fun b hb => ?_⟩
  rcases List.mem_or_eq_of_mem_set hb with hmem | hbe
  · exact List.eq_of_mem_replicate hmem
  · exact hbe

theorem setColData_zeroData (T L : ℕ) (j : ℤ) (v : ℕ → CQ) (hv : ∀ r, v r = 0) :
    setColData (zeroData T L) j v = zeroData T L := by
  unfold setColData zeroData
  rw [List.eq_replicate_iff]
  refine ⟨by simp, fun row hrow => ?_⟩
  obtain ⟨r, hr, hre⟩ := List.mem_iff_getElem.mp hrow
  rw [← hre]
  have hr2 : r < ((List.replicate T (List.replicate L (0 : CQ))).mapIdx
      (fun r row => (fun c => row.set c (v r)) (wrapIx row.length j))).length := by
    simpa using hr
  have hr3 : r < (List.replicate T (List.replicate L (0 : CQ))).length := by
    simpa using hr
  rw [show (((List.replicate T (List.replicate L (0 : CQ))).mapIdx
      (fun r row => (fun c => row.set c (v r)) (wrapIx row.length j))))[r] =
    (fun r row => (fun c => row.set c (v r)) (wrapIx row.length j)) r
      ((List.replicate T (List.replicate L (0 : CQ)))[r])
    from List.getElem_mapIdx ..]
  rw [List.getElem_replicate]
  simp only [hv r]
  exact set_replicate_zero L _

theorem foldl_eq_of_fixed {α β : Type} (f : β → α → β) (b : β) :
    ∀ l : List α, (∀ x ∈ l, f b x = b) → l.foldl f b = b := by
  intro l
  induction l with
  | nil => intro _; rfl
  | cons x l ih =>
    intro h
    rw [List.foldl_cons, h x (List.mem_cons_self x l)]
    exact ih (fun y hy => h y (List.mem_cons_of_mem _ hy))

theorem map_mul_zero_data (T L : ℕ) (d : Data) (hd : shaped T L d) :
    d.map (fun row => row.map (fun z => z * 0)) = zeroData T L := by
  unfold zeroData
  rw [List.eq_replicate_iff]
  refine ⟨by simp [hd.1], fun row hrow => ?_⟩
  obtain ⟨row0, hrow0, hre⟩ := List.mem_map.mp hrow
  rw [← hre, List.eq_replicate_iff]
  refine ⟨by rw [List.length_map]; exact hd.2 _ hrow0, fun b hb => ?_⟩
  obtain ⟨z, _, hz⟩ := List.mem_map.mp hb
  rw [← hz, mul_zero]

theorem normSq_zero : CQ.normSq 0 = 0 := by
  show (0 : ℚ) * 0 + 0 * 0 = 0
  ring

theorem norms_of_zeroData (T L : ℕ) :
    (zeroData T L).map (fun row => (row.map CQ.normSq).sum) =
      List.replicate T (0 : ℚ) := by
  unfold zeroData
  rw [List.map_replicate, List.map_replicate, normSq_zero]
  congr 1
  rw [List.sum_replicate, smul_zero]

theorem trapz_zero (x : List ℚ) (k : ℕ) : trapz (List.replicate k 0) x = 0 := by
  unfold trapz
  have hgen : ∀ (l : List ((ℚ × ℚ) × (ℚ × ℚ))),
      (∀ p ∈ l, p.1.2 = 0 ∧ p.2.2 = 0) → ∀ acc : ℚ,
      l.foldl (fun acc p => acc + (p.2.1 - p.1.1) * (p.1.2 + p.2.2) / 2) acc = acc := by
    intro l
    induction l with
    | nil => intro _ acc; rfl
    | cons p l ih =>
      intro h acc
      rw [List.foldl_cons]
      obtain ⟨h1, h2⟩ := h p (List.mem_cons_self p l)
      rw [h1, h2]
      have hstep : acc + (p.2.1 - p.1.1) * (0 + 0) / 2 = acc := by ring
      rw [hstep]
      exact ih (fun q hq => h q (List.mem_cons_of_mem _ hq)) acc
  apply hgen
  intro p hp
  have hmem := List.of_mem_zip (show (p.1, p.2) ∈
    (x.zip (List.replicate k 0)).zip ((x.tail).zip (List.replicate k 0).tail) from hp)
  constructor
  · have := (List.of_mem_zip (show (p.1.1, p.1.2) ∈ x.zip (List.replicate k 0)
      from hmem.1)).2
    exact List.eq_of_mem_replicate this
  · have h2 := (List.of_mem_zip (show (p.2.1, p.2.2) ∈
      (x.tail).zip (List.replicate k 0).tail from hmem.2)).2
    exact List.eq_of_mem_replicate (List.mem_of_mem_tail h2)

theorem residual_err_zero (T L : ℕ) (td : Data) (tlist : List ℚ) (emin : ℕ)
    (pairs : List (ℕ × ℤ)) (hsh : shaped T L td) :
    1 / 2 * trapz ((pairs.foldl (fun dd lm =>
        setColData dd (LM_index lm.1 lm.2 emin) (fun r =>
          entry td r (wrapIx ((td.getD r []).length) (LM_index lm.1 lm.2 emin)) -
          entry td r (wrapIx ((td.getD r []).length) (LM_index lm.1 lm.2 emin))))
      (td.map (fun row => row.map (fun z => z * 0)))).map
        (fun row => (row.map CQ.normSq).sum)) tlist /
      trapz (td.map (fun row => (row.map CQ.normSq).sum)) tlist = 0 := by
  rw [map_mul_zero_data T L td hsh]
  rw [foldl_eq_of_fixed _ _ pairs (fun lm _ =>
    setColData_zeroData T L (LM_index lm.1 lm.2 emin) _ (fun r => sub_self _))]
  rw [norms_of_zeroData, trapz_zero]
  simp

end Ringdown

namespace Ringdown

/-! ## C1 — round-trip recovery by the least-squares fitter -/

/-- C1 (amended): synthesize-then-fit recovers the amplitudes exactly, and the
returned normalized error and mismatch are zero, provided that (besides the
claim's own setup: a target `td` synthesized from the dictionary `D0` over
`t`, spin `chi_f`, mass `M_f` and reference time `t_ref`, and a fit of `Dfit`,
the same dictionary with amplitudes unset) the following hold, none of which
the original claim states: the dictionary keys are exactly `0 .. n-1`
(`hkeys`; otherwise the write-back misassigns, see C3); every term's azimuthal
number has `|m| ≤ 2` (`hmabs` inside `hterm`; `data_index_m` hardcodes
`range(2, ...)`, so for `|m| > 2` the selected columns alias other modes);
the unit-amplitude waveforms of all terms synthesize successfully (`hcols`);
the least-squares solver returns an exact solution of the (consistent) system
(`hsolve`) and the design matrix has full column rank (`huniq`; it fails for
duplicate-mode dictionaries, see `C1_counterexample`); the windowed power of
the target is positive and the external spline is exact at the knots
(`hpos`, `hinterp`; see C9).  Under these, `fit_rd` returns the synthesized
data itself, a normalized error of exactly 0, and a final dictionary equal to
`D0` — the fitter has filled the recovered amplitudes into the caller's
dictionary — and the mismatch is exactly 0. -/
theorem C1_amended_roundtrip_recovery (oracle : Oracle) (cexp : CQ → CQ)
    (lstsq : List (List CQ) → List CQ → List CQ) (interp : WM → List ℚ → WM)
    (t : List ℚ) (t_ref : ℚ) (times : ℚ × ℚ) (chi_f M_f : ℚ) (emax : ℕ)
    (D0 Dfit : List (ℕ × Term)) (td : Data) (mlist : List ℤ) (colD : ℕ → Data)
    (hkeys : Dfit.map (·.1) = List.range Dfit.length)
    (hstrip : stripA Dfit = stripA D0)
    (hterm : ∀ kv ∈ D0, kv.2.type = "QNM" ∧
      ∃ md a, kv.2.mode = some md ∧ kv.2.A = some a ∧ md.2.1.natAbs ≤ 2)
    (hsynth : data_functor oracle cexp (.scalar chi_f) (.scalar M_f) D0 none
      t t_ref 2 emax = .ok td)
    (hml : fit_m_list Dfit = .ok mlist)
    (hcols : ∀ p, p < D0.length →
      data_functor oracle cexp (.scalar chi_f) (.scalar M_f) [(0, unit_term D0 p)]
        none t t_ref 2 emax = .ok (colD p))
    (hsolve : ∀ m ∈ mlist,
      matVecCols (designCols colD D0 2 emax m)
          (lstsq (designCols colD D0 2 emax m) (obsVec td 2 emax m)) =
        obsVec td 2 emax m ∧
      (lstsq (designCols colD D0 2 emax m) (obsVec td 2 emax m)).length =
        (gpos D0 m).length)
    (huniq : ∀ m ∈ mlist, ∀ x y : List CQ,
      x.length = (gpos D0 m).length → y.length = (gpos D0 m).length →
      matVecCols (designCols colD D0 2 emax m) x =
        matVecCols (designCols colD D0 2 emax m) y → x = y)
    (hinterp : interp
        (zeroModesWith (LM_list 2 emax) ⟨t, 2, emax, td⟩ (some (LM_list 2 emax)))
        (wslice (zeroModesWith (LM_list 2 emax) ⟨t, 2, emax, td⟩ (some (LM_list 2 emax)))
          (argminAbs t times.1 + 1) (argminAbs t times.2 + 1)).t =
      wslice (zeroModesWith (LM_list 2 emax) ⟨t, 2, emax, td⟩ (some (LM_list 2 emax)))
        (argminAbs t times.1 + 1) (argminAbs t times.2 + 1))
    (hpos : 0 < trapz (wnormList
        (wslice (zeroModesWith (LM_list 2 emax) ⟨t, 2, emax, td⟩ (some (LM_list 2 emax)))
          (argminAbs t times.1 + 1) (argminAbs t times.2 + 1)))
        (wslice (zeroModesWith (LM_list 2 emax) ⟨t, 2, emax, td⟩ (some (LM_list 2 emax)))
          (argminAbs t times.1 + 1) (argminAbs t times.2 + 1)).t) :
    fit_rd oracle cexp lstsq ⟨t, 2, emax, td⟩ none times chi_f M_f Dfit t_ref =
      .ok (td, 0, D0) ∧
    fit_mismatch oracle cexp lstsq interp ⟨t, 2, emax, td⟩ none times chi_f M_f
      Dfit t_ref = 0 := by
  have hlen : Dfit.length = D0.length := stripA_eq_length hstrip
  have hterm_at : ∀ q, q < D0.length → (D0.getD q (0, default)).2.type = "QNM" ∧
      ∃ md a, (D0.getD q (0, default)).2.mode = some md ∧
        (D0.getD q (0, default)).2.A = some a ∧ md.2.1.natAbs ≤ 2 := by
    intro q hq
    rw [List.getD_eq_getElem _ _ hq]
    exact hterm _ (List.getElem_mem hq)
  obtain ⟨htd, hshtd, hshcol⟩ := synth_target_decomp oracle cexp chi_f M_f t t_ref
    2 emax D0 td colD
    (fun kv hkv => ⟨(hterm kv hkv).1, by
      obtain ⟨md, a, _, hA, _⟩ := (hterm kv hkv).2
      exact ⟨a, hA⟩⟩)
    hcols hsynth
  have hstepOf : ∀ p, p < D0.length →
      stepTerm oracle cexp (.scalar chi_f) (.scalar M_f) t t_ref 2
        (LM_list 2 emax) (zeroData t.length (LM_list 2 emax).length)
        (unit_term D0 p) = .ok (colD p) := by
    intro p hp
    exact foldlM_singleton _ _ _ _
      (show [unit_term D0 p].foldlM
        (stepTerm oracle cexp (.scalar chi_f) (.scalar M_f) t t_ref 2
          (LM_list 2 emax))
        (zeroData t.length (LM_list 2 emax).length) = .ok (colD p)
       from hcols p hp)
  have hforeign : ∀ (m : ℤ), m.natAbs ≤ 2 → ∀ q ∈ (D0.map (·.2)).enum,
      (q.2.mode.elim false (fun md => decide (md.2.1 = m))) = false →
      ∀ j ∈ data_index_m 2 emax none m, ∀ r,
        entry (colD q.1) r (wrapIx (LM_list 2 emax).length j) = 0 := by
    intro m hm2 q hq hpb j hj r
    obtain ⟨hqlt, hqsnd⟩ := mem_enum_map_snd D0 q hq
    obtain ⟨hQ, hrest⟩ := hterm_at q.1 hqlt
    obtain ⟨md, a, hmd, hA, habs⟩ := hrest
    obtain ⟨ell, mm, n, sg⟩ := md
    have hmm : mm ≠ m := by
      rw [hqsnd, hmd] at hpb
      simp only [Option.elim] at hpb
      exact of_decide_eq_false hpb
    obtain ⟨l, hl2, hlmax, hjeq⟩ := (mem_data_index 2 emax m j).mp hj
    subst hjeq
    refine stepTerm_frozen oracle cexp chi_f M_f t t_ref 2 (LM_list 2 emax)
      t.length (LM_list 2 emax).length (colD q.1) (unit_term D0 q.1)
      ell n mm sg ?_ ?_ ?_ _ ?_ r
    · show (D0.getD q.1 (0, default)).2.type = "QNM"
      exact hQ
    · show (D0.getD q.1 (0, default)).2.mode = some (ell, mm, n, sg)
      exact hmd
    · exact hstepOf q.1 hqlt
    · intro lm hlm hlm2
      have hb := (mem_LM_list 2 emax lm).mp hlm
      refine wrapIx_LM_ne _ lm.1 l lm.2 m 2 hb.2.2.1 hb.2.2.2 (by omega) (by omega)
        hb.1 hl2 ?_
      rw [hlm2]
      exact hmm
  have hsrc := fit_m_list_src Dfit [] mlist hml
  have hfwd := fit_m_list_fold Dfit [] mlist hml
  have hgposEq : ∀ m, gpos Dfit m = gpos D0 m :=
    fun m => gpos_eq_of_modes (stripA_eq_modes hstrip) m
  have hmabs_list : ∀ m ∈ mlist, m.natAbs ≤ 2 := by
    intro m hm
    rcases hsrc m hm with habs | ⟨kv, hkv, md, hmd, hmdm⟩
    · exact absurd habs (by simp)
    · obtain ⟨i, hi, hie⟩ := List.mem_iff_getElem.mp hkv
      have hmode : (Dfit.getD i (0, default)).2.mode =
          (D0.getD i (0, default)).2.mode := stripA_eq_mode_at hstrip i
      rw [List.getD_eq_getElem _ _ hi, hie, hmd] at hmode
      have hiD : i < D0.length := by omega
      obtain ⟨md', a', hmd', _, habs'⟩ := (hterm_at i hiD).2
      rw [hmd'] at hmode
      have hmdmd : md = md' := Option.some.inj hmode
      rw [← hmdm, hmdmd]
      exact habs'
  have hgrp_ne : ∀ m ∈ mlist, group_m D0 m ≠ [] := by
    intro m hm
    rcases hsrc m hm with habs | ⟨kv, hkv, md, hmd, hmdm⟩
    · exact absurd habs (by simp)
    · obtain ⟨i, hi, hie⟩ := List.mem_iff_getElem.mp hkv
      intro hnil
      have hgm : i ∈ gpos D0 m := by
        rw [← hgposEq m, mem_gpos_iff]
        refine ⟨hi, ?_⟩
        rw [List.getD_eq_getElem _ _ hi, hie, hmd]
        simp [Option.elim, hmdm]
      rw [show gpos D0 m = (group_m D0 m).map (·.1) from rfl, hnil] at hgm
      exact absurd hgm (by simp)
  have hcover : ∀ q, q < D0.length → ∃ m ∈ mlist, q ∈ gpos Dfit m := by
    intro q hq
    have hqd : q < Dfit.length := by omega
    obtain ⟨md, hmd, hml2⟩ := hfwd.2 (Dfit[q]) (List.getElem_mem hqd)
    refine ⟨md.2.1, hml2, ?_⟩
    rw [mem_gpos_iff]
    refine ⟨hqd, ?_⟩
    rw [List.getD_eq_getElem _ _ hqd, hmd]
    simp [Option.elim]
  have hEq : ∀ m ∈ mlist,
      lstsq (designCols colD D0 2 emax m) (obsVec td 2 emax m) = ampVec D0 m := by
    intro m hm
    have hobs : obsVec td 2 emax m =
        matVecCols (designCols colD D0 2 emax m) (ampVec D0 m) :=
      obs_decomp emax t.length (LM_list 2 emax).length m D0 td colD htd hshcol
        (hforeign m (hmabs_list m hm)) (hgrp_ne m hm)
    refine huniq m hm _ _ (hsolve m hm).2 (by simp [ampVec]) ?_
    rw [(hsolve m hm).1, ← hobs]
  obtain ⟨stF, hrunF, hstripF, huntF, hvalF⟩ := fit_groups_fold_spec oracle cexp lstsq
    ⟨t, 2, emax, td⟩ none times chi_f M_f t_ref Dfit (fun _ => ((2 : ℕ), emax))
    (fun _ p => colD p) mlist hkeys
    (fun m hm => rfl)
    (fun m hm => by
      show (data_index_m 2 emax none m).length = emax + 1 - 2
      exact length_data_index 2 emax m)
    (fun m hm p hp => by
      rw [stripA_eq_unit_term hstrip p]
      exact hcols p (by
        have := gpos_mem_lt Dfit m p hp
        omega))
    Dfit rfl
  have hTD : (truncEll ⟨t, 2, emax, td⟩ emax).data = td :=
    truncEll_data ⟨t, 2, emax, td⟩ t.length hshtd
  have hstF : stF = D0 := by
    have hstripFD : stripA stF = stripA D0 := hstripF.trans hstrip
    have hlenF : stF.length = D0.length := stripA_eq_length hstripFD
    apply List.ext_getElem
    · exact hlenF
    · intro q hqF hqD
      have hq : q < D0.length := hqD
      obtain ⟨m, hm, hqg⟩ := hcover q hq
      obtain ⟨k, hk, hkq⟩ := List.mem_iff_getElem.mp hqg
      have hval := hvalF m hm k hk
      rw [hkq] at hval
      rw [hgposEq m] at hval
      rw [hTD] at hval
      rw [show ((gpos D0 m).map (fun p =>
          (selectCols (colD p) (data_index_m 2 emax none m)).flatten)) =
        designCols colD D0 2 emax m from rfl] at hval
      rw [show ((selectCols td (data_index_m 2 emax none m)).flatten) =
        obsVec td 2 emax m from rfl] at hval
      rw [hEq m hm] at hval
      have hk' : k < (gpos D0 m).length := by rw [← hgposEq m]; exact hk
      have hkq' : (gpos D0 m).getD k 0 = q := by
        rw [← hgposEq m, List.getD_eq_getElem _ _ hk]
        exact hkq
      have hkq2 : (gpos D0 m)[k] = q := by
        rw [← List.getD_eq_getElem (gpos D0 m) 0 hk']
        exact hkq'
      have hampk : (ampVec D0 m).getD k 0 = (D0.getD q (0, default)).2.A.getD 0 := by
        unfold ampVec
        rw [List.getD_eq_getElem _ _ (by rw [List.length_map]; exact hk'),
          List.getElem_map, hkq2]
      rw [hampk] at hval
      obtain ⟨md, a, hmd, hA, _⟩ := (hterm_at q hq).2
      have hAq : (stF.getD q (0, default)).2.A = (D0.getD q (0, default)).2.A := by
        rw [hval, hA]
        rfl
      have hgetD := getD_eq_of_stripA hstripFD q (by omega) hAq
      rw [List.getD_eq_getElem _ _ hqF, List.getD_eq_getElem _ _ hqD] at hgetD
      exact hgetD
  rw [hstF] at hrunF
  have hqm : qnm_modes_as oracle cexp (.scalar chi_f) (.scalar M_f) D0
      ⟨t, 2, emax, td⟩ none times.1 t_ref = .ok td := hsynth
  have hrun : fit_rd oracle cexp lstsq ⟨t, 2, emax, td⟩ none times chi_f M_f
      Dfit t_ref = .ok (td, 0, D0) := by
    unfold fit_rd
    simp only [hml]
    simp only [hrunF]
    simp only [hqm]
    rw [residual_err_zero t.length (LM_list 2 emax).length td t 2
      (fit_modes_list ⟨t, 2, emax, td⟩ none) hshtd]
  refine ⟨hrun, ?_⟩
  unfold fit_mismatch
  simp only [hrun]
  refine mismatch_self_eq_zero interp ⟨t, 2, emax, td⟩
    (some (fit_modes_list ⟨t, 2, emax, td⟩ none)) times.1 times.2 ?_ ?_
  · simp only [mismatch_core]
    split
    · exact hinterp
    · rfl
  · simpa only [mismatch_core] using hpos

end Ringdown

namespace Ringdown

/-- Witness for C1 (amended): a one-term dictionary with mode (2,2,0,+1) and
amplitude 3+i on the time axis [0,1,2] with emax = 2; the solver returns the
exact amplitude, and the fit returns the synthesized data, error 0, mismatch 0
and the dictionary with the amplitude restored. -/
theorem C1_amended_roundtrip_recovery_witness :
    fit_rd oracleL2 cexpOne (fun _ _ => [⟨3, 1⟩])
        ⟨[0, 1, 2], 2, 2,
          [[0, 0, 0, 0, ⟨3, 1⟩], [0, 0, 0, 0, ⟨3, 1⟩], [0, 0, 0, 0, ⟨3, 1⟩]]⟩
        none (0, 2) (7/10) 1 [(0, qnmT (2, 2, 0, 1) none)] 0 =
      .ok ([[0, 0, 0, 0, ⟨3, 1⟩], [0, 0, 0, 0, ⟨3, 1⟩], [0, 0, 0, 0, ⟨3, 1⟩]], 0,
        [(0, qnmT (2, 2, 0, 1) (some ⟨3, 1⟩))]) ∧
    fit_mismatch oracleL2 cexpOne (fun _ _ => [⟨3, 1⟩]) sliceInterp
      ⟨[0, 1, 2], 2, 2,
        [[0, 0, 0, 0, ⟨3, 1⟩], [0, 0, 0, 0, ⟨3, 1⟩], [0, 0, 0, 0, ⟨3, 1⟩]]⟩
      none (0, 2) (7/10) 1 [(0, qnmT (2, 2, 0, 1) none)] 0 = 0 := by
  exact C1_amended_roundtrip_recovery oracleL2 cexpOne (fun _ _ => [⟨3, 1⟩])
    sliceInterp [0, 1, 2] 0 (0, 2) (7/10) 1 2
    [(0, qnmT (2, 2, 0, 1) (some ⟨3, 1⟩))] [(0, qnmT (2, 2, 0, 1) none)]
    [[0, 0, 0, 0, ⟨3, 1⟩], [0, 0, 0, 0, ⟨3, 1⟩], [0, 0, 0, 0, ⟨3, 1⟩]]
    [2] (fun _ => [[0, 0, 0, 0, 1], [0, 0, 0, 0, 1], [0, 0, 0, 0, 1]])
    (by with_unfolding_all rfl)
    (by with_unfolding_all rfl)
    (by
      intro kv hkv
      rw [List.mem_singleton] at hkv
      subst hkv
      exact ⟨rfl, (2, 2, 0, 1), ⟨3, 1⟩, rfl, rfl, by decide⟩)
    (by with_unfolding_all rfl)
    (by with_unfolding_all rfl)
    (by
      intro p hp
      simp only [List.length_singleton, Nat.lt_one_iff] at hp
      subst hp
      with_unfolding_all rfl)
    (by
      intro m hm
      rw [List.mem_singleton] at hm
      subst hm
      constructor
      · with_unfolding_all rfl
      · with_unfolding_all rfl)
    (by
      intro m hm x y hx hy hmv
      rw [List.mem_singleton] at hm
      subst hm
      rw [show (gpos [(0, qnmT (2, 2, 0, 1) (some ⟨3, 1⟩))] 2).length = 1 by
        with_unfolding_all rfl] at hx hy
      obtain ⟨a, rfl⟩ := List.length_eq_one.mp hx
      obtain ⟨b, rfl⟩ := List.length_eq_one.mp hy
      rw [show designCols
          (fun _ => [[0, 0, 0, 0, 1], [0, 0, 0, 0, 1], [0, 0, 0, 0, 1]])
          [(0, qnmT (2, 2, 0, 1) (some ⟨3, 1⟩))] 2 2 2 = [[1, 1, 1]] by
        with_unfolding_all rfl] at hmv
      rw [show matVecCols [[1, 1, 1]] [a] = [a * 1 + 0, a * 1 + 0, a * 1 + 0]
          from rfl,
        show matVecCols [[1, 1, 1]] [b] = [b * 1 + 0, b * 1 + 0, b * 1 + 0]
          from rfl] at hmv
      injection hmv with hab hrest
      have hab2 : a = b := by simpa using hab
      rw [hab2])
    (by with_unfolding_all rfl)
    (by with_unfolding_all decide)

end Ringdown

namespace Ringdown

/-- C1 (counterexample): the claim fails as stated.  Synthesize a target from
the two-term dictionary `{0: (2,2,0,+1) with A = 1, 1: (2,2,0,+1) with A = 0}`
(a duplicate mode, so the two design columns are identical and the system is
rank-deficient).  The minimum-norm least-squares solution — which is what
`np.linalg.lstsq` returns, modelled here by the solver returning
`[1/2, 1/2]`, verified below to solve the system with zero residual — gives
both terms amplitude 1/2, not the original `(1, 0)`: the amplitudes are NOT
recovered. -/
theorem C1_counterexample :
    data_functor oracleL2 cexpOne (.scalar (7/10)) (.scalar 1)
      [(0, qnmT (2, 2, 0, 1) (some 1)), (1, qnmT (2, 2, 0, 1) (some 0))] none
      [0, 1, 2] 0 2 2 =
      .ok [[0, 0, 0, 0, 1], [0, 0, 0, 0, 1], [0, 0, 0, 0, 1]] ∧
    matVecCols [[1, 1, 1], [1, 1, 1]] [⟨1/2, 0⟩, ⟨1/2, 0⟩] = [1, 1, 1] ∧
    (fit_rd oracleL2 cexpOne (fun _ _ => [⟨1/2, 0⟩, ⟨1/2, 0⟩])
        ⟨[0, 1, 2], 2, 2, [[0, 0, 0, 0, 1], [0, 0, 0, 0, 1], [0, 0, 0, 0, 1]]⟩
        none (0, 2) (7/10) 1
        [(0, qnmT (2, 2, 0, 1) none), (1, qnmT (2, 2, 0, 1) none)]
        0).toOption.map (fun r => r.2.2.map (fun kv => kv.2.A)) =
      some [some ⟨1/2, 0⟩, some ⟨1/2, 0⟩] ∧
    [some (⟨1/2, 0⟩ : CQ), some ⟨1/2, 0⟩] ≠ [some 1, some 0] := by
  refine ⟨by with_unfolding_all rfl, by with_unfolding_all rfl,
    by with_unfolding_all rfl, by with_unfolding_all decide⟩

end Ringdown
